import Mathlib

/-!
Shallow embedding of the string-processing logic of
`conversational_murf_ai.py` (MurfAI conversational assistant), together with
theorems settling the specification claims about it.

Modelling conventions: Python strings are `List Char`; the `langdetect`
library call is a function parameter (`none` models a raised exception);
fallible byte conversions return `Option`; OS side effects are recorded as an
explicit list of attempted system calls.
-/

namespace MurfAI

/-- ASCII lowercasing of a single character, modelling Python `str.lower`
restricted to the ASCII range (every keyword, marker and voice id involved is
ASCII). -/
def lowerCh (c : Char) : Char :=
  if 'A' ≤ c ∧ c ≤ 'Z' then Char.ofNat (c.toNat + 32) else c

/-- The ASCII whitespace characters: stripped by Python `str.strip` and
matched by the regex class `\s` (space, tab, newline, vertical tab, form
feed, carriage return). -/
def isPySpace (c : Char) : Bool :=
  c == ' ' || c == '\t' || c == '\n' || c == '\x0b' || c == '\x0c' || c == '\r'

/-- Python `str.strip()`: remove leading and trailing whitespace. -/
def pyStrip (l : List Char) : List Char :=
  ((l.dropWhile isPySpace).reverse.dropWhile isPySpace).reverse

/-- Whether `p` is a prefix of the second argument, character by character (the
anchored step of Python substring search). -/
def startsWithL : List Char → List Char → Bool
  | [], _ => true
  | _ :: _, [] => false
  | p :: ps, c :: cs => p == c && startsWithL ps cs

/-- Python substring containment `pat in s`. -/
def containsSub (pat : List Char) : List Char → Bool
  | [] => pat.isEmpty
  | c :: cs => startsWithL pat (c :: cs) || containsSub pat cs

/-- A character of the Devanagari Unicode block, the script test
`'ऀ' <= char <= 'ॿ'` on source line 461. -/
def isDevanagari (c : Char) : Bool :=
  0x900 ≤ c.toNat && c.toNat ≤ 0x97F

/-- The transliterated Hindi/Hinglish keyword list of
`detect_language_and_choose_voice` (source lines 466-472). -/
def hindi_patterns : List (List Char) :=
  ([ "aap", "kaise", "theek", "bilkul", "zaroor", "accha", "nahi", "hai", "hoon", "kya",
     "mera", "tera", "uska", "hamara", "tumhara", "kab", "kahan", "kyun", "kaun",
     "main", "tum", "hum", "voh", "yeh", "woh", "jo", "agar", "lekin", "par",
     "namaste", "dhanyawad", "shukriya", "maaf", "kijiye", "please", "baat", "samay",
     "ghar", "paisa", "kaam", "logo", "dost", "family", "khana", "pani", "sapna" ] :
   List String).map String.toList

/-- The `hindi_score` count: how many of the fixed patterns occur in the cleaned text
(source line 475, a sum of indicator values over the pattern list). -/
def hindiScore (clean : List Char) : Nat :=
  (hindi_patterns.filter (fun p => containsSub p clean)).length

/-- The six Hindi voices the decision logic alternates between
(source line 490). -/
def hindi_voices : List (List Char) :=
  ([ "hi-IN-ayushi", "hi-IN-amit", "hi-IN-shweta",
     "hi-IN-shaan", "hi-IN-rahul", "hi-IN-kabir" ] : List String).map String.toList

/-- The cleaned text `clean_text = text.lower().strip()` (source line 459). -/
def cleanOf (text : List Char) : List Char := pyStrip (text.map lowerCh)

/-- The language code used by the decision logic: `detect(clean_text)` when
the cleaned text has length at least 3, with the bare `except` of source
lines 479-482 mapping a raising detector (`det _ = none`) to the fallback
code `en`. -/
def detectedLang (det : List Char → Option (List Char)) (clean : List Char) : List Char :=
  if 3 ≤ clean.length then (det clean).getD ("en".toList) else ("en".toList)

/-- Model of `detect_language_and_choose_voice` (source lines 448-508). `avail` models
`LANGDETECT_AVAILABLE and detect is not None`; `det` is the `langdetect.detect`
call; `text.all isPySpace` is the guard `not text.strip()`. The outer
`except` of lines 506-508 is unreachable here because every remaining step of
the body is total. -/
def detect_language_and_choose_voice (avail : Bool)
    (det : List Char → Option (List Char)) (text cv : List Char) : List Char :=
  if !avail || text.all isPySpace then cv
  else if text.any isDevanagari then ("hi-IN-ayushi".toList)
  else if detectedLang det (cleanOf text) = ("hi".toList) ∨ 2 ≤ hindiScore (cleanOf text) then
    hindi_voices.getD (hindiScore (cleanOf text) % hindi_voices.length) ("hi-IN-ayushi".toList)
  else if detectedLang det (cleanOf text) = ("en".toList) then
    if containsSub ("please".toList) (cleanOf text) || containsSub ("help".toList) (cleanOf text) then
      ("en-IN-priya".toList)
    else if containsSub ("search".toList) (cleanOf text) || containsSub ("open".toList) (cleanOf text)
        || containsSub ("find".toList) (cleanOf text) then
      ("en-IN-aarav".toList)
    else ("en-IN-priya".toList)
  else ("en-IN-priya".toList)

/-- A Devanagari character is not whitespace, so Devanagari text survives the
`not text.strip()` guard. -/
theorem all_space_false_of_devanagari (text : List Char)
    (h : text.any isDevanagari = true) : text.all isPySpace = false := by
  rw [List.any_eq_true] at h
  obtain ⟨c, hc, hdev⟩ := h
  rw [List.all_eq_false]
  refine ⟨c, hc, ?_⟩
  simp only [isDevanagari, Bool.and_eq_true, decide_eq_true_eq] at hdev
  simp only [isPySpace, Bool.or_eq_true, beq_iff_eq, not_or]
  have h9 : 0x900 ≤ c.toNat := hdev.1
  refine ⟨⟨⟨⟨⟨?_, ?_⟩, ?_⟩, ?_⟩, ?_⟩, ?_⟩ <;>
    (intro hEq; subst hEq; revert h9; decide)

/-- A successfully indexed Hindi voice is one of the six Hindi voices. -/
theorem hindi_voices_getD_mem (n : Nat) :
    hindi_voices.getD (n % hindi_voices.length) ("hi-IN-ayushi".toList) ∈ hindi_voices := by
  have hlen : hindi_voices.length = 6 := by decide
  have h6 : n % hindi_voices.length < 6 := by
    rw [hlen]; exact Nat.mod_lt _ (by decide)
  have : n % hindi_voices.length = 0 ∨ n % hindi_voices.length = 1 ∨
      n % hindi_voices.length = 2 ∨ n % hindi_voices.length = 3 ∨
      n % hindi_voices.length = 4 ∨ n % hindi_voices.length = 5 := by omega
  rcases this with h | h | h | h | h | h <;> rw [h] <;> decide

/-- C3: with the detection library available, any text containing a character
of the Devanagari block (U+0900 through U+097F) is routed to the fixed Hindi
voice `hi-IN-ayushi`, whatever the detector reports and whatever the keyword
count is (the script check on source line 461 runs before both). -/
theorem devanagari_text_gets_ayushi (det : List Char → Option (List Char))
    (text cv : List Char) (h : text.any isDevanagari = true) :
    detect_language_and_choose_voice true det text cv = ("hi-IN-ayushi".toList) := by
  have hne := all_space_false_of_devanagari text h
  simp [detect_language_and_choose_voice, hne, h]

/-- Witness for C3 at the concrete Devanagari input `नमस्ते`, with a detector
that raises. -/
theorem devanagari_text_gets_ayushi_check :
    ( ("नमस्ते".toList).any isDevanagari = true ) ∧
    detect_language_and_choose_voice true (fun _ => none) ("नमस्ते".toList)
      ("en-IN-priya".toList) = ("hi-IN-ayushi".toList) :=
  ⟨by decide, devanagari_text_gets_ayushi (fun _ => none) _ _ (by decide)⟩

/-- C2 counterexample: on `"search cats"` the keyword count is 0 and the
detector reports English, yet the function returns the command voice
`en-IN-aarav` — neither the caller's current voice nor the default
`en-IN-priya`, refuting "otherwise it returns the default voice". -/
theorem command_keyword_text_not_default_voice :
    hindiScore (cleanOf ("search cats".toList)) = 0 ∧
    detect_language_and_choose_voice true (fun _ => some ("en".toList))
      ("search cats".toList) ("en-IN-alia".toList) = ("en-IN-aarav".toList) ∧
    ( ("en-IN-aarav".toList) ≠ ("en-IN-priya".toList) ) ∧
    ( ("en-IN-aarav".toList) ≠ ("en-IN-alia".toList) ) :=
  ⟨by decide, by decide, by decide, by decide⟩

/-- C2 as amended: for text that is not all whitespace and has no Devanagari
character, a keyword count of at least 2 or a reported code of `hi` yields
one of the six Hindi voices; otherwise the result is one of the two English
voices, `en-IN-priya` or `en-IN-aarav` (so any other non-English report also
ends at `en-IN-priya`). -/
theorem detect_voice_selection (det : List Char → Option (List Char))
    (text cv : List Char) (hdev : text.any isDevanagari = false)
    (hws : text.all isPySpace = false) :
    ( detectedLang det (cleanOf text) = ("hi".toList) ∨ 2 ≤ hindiScore (cleanOf text) →
        detect_language_and_choose_voice true det text cv ∈ hindi_voices ) ∧
    ( detectedLang det (cleanOf text) ≠ ("hi".toList) → hindiScore (cleanOf text) < 2 →
        detect_language_and_choose_voice true det text cv = ("en-IN-priya".toList) ∨
        detect_language_and_choose_voice true det text cv = ("en-IN-aarav".toList) ) := by
  constructor
  · intro hcond
    rw [detect_language_and_choose_voice, if_neg (by simp [hws]),
      if_neg (by simp [hdev]), if_pos hcond]
    exact hindi_voices_getD_mem _
  · intro hlang hscore
    have hcond : ¬(detectedLang det (cleanOf text) = ("hi".toList) ∨
        2 ≤ hindiScore (cleanOf text)) := by
      push_neg
      exact ⟨hlang, hscore⟩
    rw [detect_language_and_choose_voice, if_neg (by simp [hws]),
      if_neg (by simp [hdev]), if_neg hcond]
    split_ifs <;> simp

/-- Witness for C2's amended theorem at `"kya hai yeh"` (keyword count 3, so
the indexed Hindi voice is chosen and lies in the list). -/
theorem detect_voice_selection_check :
    hindiScore (cleanOf ("kya hai yeh".toList)) = 3 ∧
    detect_language_and_choose_voice true (fun _ => some ("en".toList))
      ("kya hai yeh".toList) ("x".toList) ∈ hindi_voices :=
  ⟨by decide,
   (detect_voice_selection (fun _ => some ("en".toList)) _ _ (by decide) (by decide)).1
     (Or.inr (by decide))⟩

/-- C4 counterexample: when the detection call raises (the bare `except` on
source line 482), the function does not fall back to the current voice — it
treats the language as English and still applies the keyword rules, here
choosing `en-IN-aarav` for a text containing `open`. -/
theorem detector_error_still_keyword_voice :
    detect_language_and_choose_voice true (fun _ => none) ("open something".toList)
      ("en-IN-priya".toList) = ("en-IN-aarav".toList) ∧
    ( ("en-IN-aarav".toList) ≠ ("en-IN-priya".toList) ) :=
  ⟨by decide, by decide⟩

/-- C4 as amended: the fallback to the caller's current voice happens exactly
when the library is unavailable or the text is empty/whitespace-only; a
raising detection call is instead caught and treated as the code `en`, after
which selection continues unchanged. -/
theorem inconclusive_detection_fallback (det : List Char → Option (List Char))
    (text cv : List Char) :
    ( detect_language_and_choose_voice false det text cv = cv ) ∧
    ( text.all isPySpace = true → detect_language_and_choose_voice true det text cv = cv ) ∧
    ( detect_language_and_choose_voice true (fun _ => none) text cv
        = detect_language_and_choose_voice true (fun _ => some ("en".toList)) text cv ) := by
  refine ⟨by simp [detect_language_and_choose_voice], fun h => by simp [detect_language_and_choose_voice, h], ?_⟩
  have hdl : detectedLang (fun _ => none) (cleanOf text)
      = detectedLang (fun _ => some ("en".toList)) (cleanOf text) := by
    simp [detectedLang]
  simp only [detect_language_and_choose_voice, hdl]

/-- Witness for C4's amended theorem: the unavailable-library and
whitespace-only fallbacks at concrete inputs, plus the raising-detector
equivalence at a text with a command keyword. -/
theorem inconclusive_detection_fallback_check :
    detect_language_and_choose_voice false (fun _ => none) ("hello".toList)
      ("en-IN-priya".toList) = ("en-IN-priya".toList) ∧
    detect_language_and_choose_voice true (fun _ => none) ("  ".toList)
      ("en-IN-priya".toList) = ("en-IN-priya".toList) ∧
    detect_language_and_choose_voice true (fun _ => none) ("open something".toList)
      ("v".toList) = detect_language_and_choose_voice true
      (fun _ => some ("en".toList)) ("open something".toList) ("v".toList) :=
  ⟨(inconclusive_detection_fallback (fun _ => none) ("hello".toList) ("en-IN-priya".toList)).1,
   (inconclusive_detection_fallback (fun _ => none) ("  ".toList) ("en-IN-priya".toList)).2.1
     (by decide),
   (inconclusive_detection_fallback (fun _ => none) ("open something".toList)
     ("v".toList)).2.2⟩

/-- C7: the voice selector is a pure function of its text, its current voice
and the detector's answer on the cleaned text: two calls whose detectors
agree there return the same voice (the detector is consulted exactly once, on
`clean_text`), and the embedding touches no other state. -/
theorem detect_voice_deterministic (avail : Bool)
    (d1 d2 : List Char → Option (List Char)) (text cv : List Char)
    (h : d1 (cleanOf text) = d2 (cleanOf text)) :
    detect_language_and_choose_voice avail d1 text cv
      = detect_language_and_choose_voice avail d2 text cv := by
  simp only [detect_language_and_choose_voice, detectedLang, h]

/-- Witness for C7: two detectors that differ elsewhere but agree on the one
cleaned text that is consulted give the same voice. -/
theorem detect_voice_deterministic_check :
    detect_language_and_choose_voice true (fun _ => some ("en".toList))
      ("hello".toList) ("v".toList)
      = detect_language_and_choose_voice true
        (fun s => if s = ("hello".toList) then some ("en".toList) else some ("hi".toList))
        ("hello".toList) ("v".toList) :=
  detect_voice_deterministic true _ _ _ _ (by decide)

/-- The history trimming of `ConversationalAI.run` (source lines 739-741):
when the conversation history exceeds 11 entries it is cut to its first entry
(the system prompt) plus its last 10 entries. -/
def truncateHistory {α : Type*} (h : List α) : List α :=
  if 11 < h.length then h.take 1 ++ h.drop (h.length - 10) else h

/-- The history update performed by `ConversationalAI.run` before the request
is issued (source lines 736-741): append the new user message, then trim.
The trimmed list is exactly the `messages` field of the payload sent to the
hosted chat API (source line 753). -/
def appendAndTruncate {α : Type*} (h : List α) (m : α) : List α :=
  truncateHistory (h ++ [m])

/-- C5: after appending the new user message the trimmed history — the
payload actually sent — never holds more than 11 entries, still ends with the
new message, continues the most recent entries of the untrimmed list, and
when the untrimmed list exceeded 11 entries it is exactly the first entry
plus the last 10. -/
theorem history_payload_bounded {α : Type*} (h : List α) (m : α) :
    (appendAndTruncate h m).length ≤ 11 ∧
    (appendAndTruncate h m).getLast? = some m ∧
    List.IsSuffix ((appendAndTruncate h m).drop 1) (h ++ [m]) ∧
    (11 < (h ++ [m]).length →
      appendAndTruncate h m
        = (h ++ [m]).take 1 ++ (h ++ [m]).drop ((h ++ [m]).length - 10)) := by
  by_cases hlen : 11 < (h ++ [m]).length
  · have hx : appendAndTruncate h m
        = (h ++ [m]).take 1 ++ (h ++ [m]).drop ((h ++ [m]).length - 10) := by
      rw [appendAndTruncate, truncateHistory, if_pos hlen]
    have hlenx : (h ++ [m]).length = h.length + 1 := by simp
    refine ⟨?_, ?_, ?_, fun _ => hx⟩
    · rw [hx]
      simp only [List.length_append, List.length_take, List.length_drop]
      omega
    · rw [hx]
      have hdropne : (h ++ [m]).drop ((h ++ [m]).length - 10) ≠ [] := by
        intro hcon
        have := congrArg List.length hcon
        simp only [List.length_drop, List.length_nil] at this
        omega
      rw [List.getLast?_append_of_ne_nil _ hdropne]
      have hsplit := List.take_append_drop ((h ++ [m]).length - 10) (h ++ [m])
      calc ((h ++ [m]).drop ((h ++ [m]).length - 10)).getLast?
          = ((h ++ [m]).take ((h ++ [m]).length - 10)
              ++ (h ++ [m]).drop ((h ++ [m]).length - 10)).getLast? :=
            (List.getLast?_append_of_ne_nil _ hdropne).symm
        _ = (h ++ [m]).getLast? := by rw [hsplit]
        _ = some m := List.getLast?_concat _
    · rw [hx]
      have htake : ((h ++ [m]).take 1).length = 1 := by
        simp only [List.length_take]
        omega
      rw [List.drop_left' htake]
      exact List.drop_suffix ((h ++ [m]).length - 10) (h ++ [m])
  · have hx : appendAndTruncate h m = h ++ [m] := by
      rw [appendAndTruncate, truncateHistory, if_neg hlen]
    refine ⟨?_, ?_, ?_, fun hcon => absurd hcon hlen⟩
    · rw [hx]
      omega
    · rw [hx]
      exact List.getLast?_concat _
    · rw [hx]
      exact List.drop_suffix 1 (h ++ [m])

/-- Witness for C5 at a concrete overlong history: twelve prior entries plus
the new message collapse to the first entry and the last ten. -/
theorem history_payload_bounded_check :
    (appendAndTruncate [0, 1, 2, 3, 4, 5, 6, 7, 8, 9, 10, 11] 12).length ≤ 11 ∧
    appendAndTruncate [0, 1, 2, 3, 4, 5, 6, 7, 8, 9, 10, 11] 12
      = [0, 3, 4, 5, 6, 7, 8, 9, 10, 11, 12] :=
  ⟨(history_payload_bounded [0, 1, 2, 3, 4, 5, 6, 7, 8, 9, 10, 11] 12).1,
   by
    have := (history_payload_bounded [0, 1, 2, 3, 4, 5, 6, 7, 8, 9, 10, 11] 12).2.2.2
      (by decide)
    rw [this]
    decide⟩

/-- The `ConversationMessage` dataclass (source lines 128-137). The
`datetime` timestamp is an abstract tick and the float `processing_time` an
abstract count; neither is computed on in the code. -/
structure ConversationMessage where
  role : List Char
  content : List Char
  timestamp : Nat
  has_audio : Bool
  audio_file : Option (List Char)
  voice_id : Option (List Char)
  processing_time : Option Nat
deriving DecidableEq

/-- Model of `ConversationalMurfAI.add_conversation_message` (source lines 1363-1379),
restricted to its effect on the `conversation_messages` list: a record is
built from the arguments (voice id attached only when audio is flagged,
`audio_file` left at its dataclass default `None`) and appended. -/
def add_conversation_message (current_voice : List Char) (now : Nat)
    (role content : List Char) (has_audio : Bool) (processing_time : Option Nat)
    (msgs : List ConversationMessage) : List ConversationMessage :=
  msgs ++ [{ role := role, content := content, timestamp := now,
             has_audio := has_audio, audio_file := none,
             voice_id := if has_audio then some current_voice else none,
             processing_time := processing_time }]

/-- Model of `ConversationalMurfAI.on_speech_ready` (source lines 1543-1552),
restricted to its effect on the message list: when the list is nonempty, the
`has_audio` flag of its last record is set
(`self.conversation_messages[-1].has_audio = True`). -/
def on_speech_ready : List ConversationMessage → List ConversationMessage
  | [] => []
  | [m] => [{ m with has_audio := true }]
  | m :: m2 :: rest => m :: on_speech_ready (m2 :: rest)

/-- Model of `ConversationalMurfAI.clear_conversation` on the confirmed path (source
lines 1706-1716): the list is emptied and the welcome system message is
appended through `add_conversation_message`. -/
def clear_conversation (current_voice : List Char) (now : Nat) :
    List ConversationMessage → List ConversationMessage :=
  fun _ => add_conversation_message current_voice now ("system".toList)
    ("🔄 Conversation cleared. Ready for a fresh start!".toList) false none []

/-- Forget the audio flag of a record; equality up to `eraseAudio` says two
lists agree on every field except possibly `has_audio`. -/
def eraseAudio (m : ConversationMessage) : ConversationMessage :=
  { m with has_audio := false }

/-- The handler `on_speech_ready` keeps the length of the message list. -/
theorem on_speech_ready_length (msgs : List ConversationMessage) :
    (on_speech_ready msgs).length = msgs.length := by
  induction msgs with
  | nil => rfl
  | cons m rest ih =>
    cases rest with
    | nil => rfl
    | cons m2 r2 => simpa [on_speech_ready] using ih

/-- The handler `on_speech_ready` leaves every record but the last one untouched. -/
theorem on_speech_ready_dropLast (msgs : List ConversationMessage) :
    (on_speech_ready msgs).dropLast = msgs.dropLast := by
  induction msgs with
  | nil => rfl
  | cons m rest ih =>
    cases rest with
    | nil => rfl
    | cons m2 r2 =>
      have hne : on_speech_ready (m2 :: r2) ≠ [] := by
        intro hcon
        have := congrArg List.length hcon
        rw [on_speech_ready_length] at this
        simp at this
      rw [show on_speech_ready (m :: m2 :: r2) = m :: on_speech_ready (m2 :: r2) from rfl,
        List.dropLast_cons_of_ne_nil hne, ih]
      exact (List.dropLast_cons_of_ne_nil (by simp)).symm

/-- The handler `on_speech_ready` changes no field other than the audio flag. -/
theorem on_speech_ready_map_eraseAudio (msgs : List ConversationMessage) :
    (on_speech_ready msgs).map eraseAudio = msgs.map eraseAudio := by
  induction msgs with
  | nil => rfl
  | cons m rest ih =>
    cases rest with
    | nil => rfl
    | cons m2 r2 => simpa [on_speech_ready, eraseAudio] using ih

/-- After `on_speech_ready` the last record of a nonempty list has its audio
flag set. -/
theorem on_speech_ready_getLast (msgs : List ConversationMessage)
    (h : msgs ≠ []) :
    (on_speech_ready msgs).getLast?.map ConversationMessage.has_audio = some true := by
  induction msgs with
  | nil => exact absurd rfl h
  | cons m rest ih =>
    cases rest with
    | nil => rfl
    | cons m2 r2 =>
      have hne : on_speech_ready (m2 :: r2) ≠ [] := by
        intro hcon
        have := congrArg List.length hcon
        rw [on_speech_ready_length] at this
        simp at this
      have hstep : (m :: on_speech_ready (m2 :: r2)).getLast?
          = (on_speech_ready (m2 :: r2)).getLast? := by
        show ([m] ++ on_speech_ready (m2 :: r2)).getLast? = _
        exact List.getLast?_append_of_ne_nil [m] hne
      rw [show on_speech_ready (m :: m2 :: r2) = m :: on_speech_ready (m2 :: r2) from rfl,
        hstep]
      exact ih (by simp)

/-- A concrete message record with its audio flag off. -/
def sampleMsg : ConversationMessage :=
  { role := ("assistant".toList), content := ("hello".toList), timestamp := 0,
    has_audio := false, audio_file := none, voice_id := none,
    processing_time := none }

/-- C8 counterexample: the speech-ready handler is an operation other than
clear, yet it does not leave every existing record unchanged — the audio flag
of the already-stored record flips from `false` to `true`. -/
theorem speech_ready_flips_existing_audio_flag :
    sampleMsg.has_audio = false ∧
    (on_speech_ready [sampleMsg]).head?.map ConversationMessage.has_audio = some true :=
  ⟨rfl, rfl⟩

/-- C8 as amended: `add_conversation_message` is append-only — the stored
prefix is untouched and exactly one record is added — while `on_speech_ready`
keeps the length, keeps every record but the last, changes no field other
than the audio flag, and sets the last record's audio flag; only
`clear_conversation` discards records. -/
theorem conversation_list_mutations (current_voice : List Char) (now : Nat)
    (role content : List Char) (ha : Bool) (pt : Option Nat)
    (msgs : List ConversationMessage) :
    ( (add_conversation_message current_voice now role content ha pt msgs).take msgs.length
        = msgs ∧
      (add_conversation_message current_voice now role content ha pt msgs).length
        = msgs.length + 1 ) ∧
    ( (on_speech_ready msgs).length = msgs.length ∧
      (on_speech_ready msgs).dropLast = msgs.dropLast ∧
      (on_speech_ready msgs).map eraseAudio = msgs.map eraseAudio ∧
      (msgs ≠ [] → (on_speech_ready msgs).getLast?.map ConversationMessage.has_audio
          = some true) ) :=
  ⟨⟨List.take_left msgs _, by simp [add_conversation_message]⟩,
   on_speech_ready_length msgs, on_speech_ready_dropLast msgs,
   on_speech_ready_map_eraseAudio msgs, on_speech_ready_getLast msgs⟩

/-- Witness for C8's amended theorem at a one-record list. -/
theorem conversation_list_mutations_check :
    (add_conversation_message ("en-IN-priya".toList) 1 ("user".toList) ("hi".toList)
        false none [sampleMsg]).take 1 = [sampleMsg] ∧
    (on_speech_ready [sampleMsg]).getLast?.map ConversationMessage.has_audio = some true :=
  ⟨(conversation_list_mutations ("en-IN-priya".toList) 1 ("user".toList) ("hi".toList)
      false none [sampleMsg]).1.1,
   (conversation_list_mutations ("en-IN-priya".toList) 1 ("user".toList) ("hi".toList)
      false none [sampleMsg]).2.2.2.2 (by simp)⟩

/-- Python `int.to_bytes(4, "little")`: the little-endian byte quadruple when
the value fits 32 bits, and `OverflowError` (modelled as `none`) otherwise. -/
def toBytes4 (n : Nat) : Option (List Nat) :=
  if n < 2 ^ 32 then
    some [n % 256, n / 256 % 256, n / 65536 % 256, n / 16777216 % 256]
  else none

/-- Python `int.to_bytes(2, "little")`. -/
def toBytes2 (n : Nat) : Option (List Nat) :=
  if n < 2 ^ 16 then some [n % 256, n / 256 % 256] else none

/-- The sample count `samples = int(sample_rate * duration)` (source line 321), the float
duration modelled as an exact rational; for a non-negative duration Python's
truncating `int` is the floor. -/
def silenceSamples (d : ℚ) : Nat := (⌊(22050 : ℚ) * d⌋).toNat

/-- The ASCII bytes of the chunk tags `RIFF`, `WAVE`, `fmt ` and `data`. -/
def riffTag : List Nat := [82, 73, 70, 70]

def waveTag : List Nat := [87, 65, 86, 69]

def fmtTag : List Nat := [102, 109, 116, 32]

def dataTag : List Nat := [100, 97, 116, 97]

/-- Model of `MurfTTSClient._create_silence_wav` (source lines 318-341): the WAV
header fields in source order, each through `to_bytes` (raising — here
`none` — when a value does not fit its field width), followed by
`samples * 2` zero bytes of silence. -/
def create_silence_wav (d : ℚ) : Option (List Nat) := do
  let samples := silenceSamples d
  let fileSize ← toBytes4 (36 + samples * 2)
  let fmtSize ← toBytes4 16
  let audioFmt ← toBytes2 1
  let channels ← toBytes2 1
  let sampleRateB ← toBytes4 22050
  let byteRate ← toBytes4 (22050 * 2)
  let blockAlign ← toBytes2 2
  let bitsPerSample ← toBytes2 16
  let dataSize ← toBytes4 (samples * 2)
  return riffTag ++ fileSize ++ waveTag ++ fmtTag ++ fmtSize ++ audioFmt ++ channels
    ++ sampleRateB ++ byteRate ++ blockAlign ++ bitsPerSample ++ dataTag ++ dataSize
    ++ List.replicate (samples * 2) 0

/-- Read a 4-byte little-endian field at a given byte offset (0 when the
list is too short). -/
def readLE4 (bytes : List Nat) (off : Nat) : Nat :=
  match bytes.drop off with
  | a :: b :: c :: e :: _ => a + 256 * b + 65536 * c + 16777216 * e
  | _ => 0

/-- The header produced for a given sample count, as one 44-byte list. -/
def wavHeaderBytes (s : Nat) : List Nat :=
  riffTag
    ++ [(36 + s * 2) % 256, (36 + s * 2) / 256 % 256,
        (36 + s * 2) / 65536 % 256, (36 + s * 2) / 16777216 % 256]
    ++ waveTag ++ fmtTag ++ [16, 0, 0, 0] ++ [1, 0] ++ [1, 0]
    ++ [34, 86, 0, 0] ++ [68, 172, 0, 0] ++ [2, 0] ++ [16, 0] ++ dataTag
    ++ [s * 2 % 256, s * 2 / 256 % 256, s * 2 / 65536 % 256, s * 2 / 16777216 % 256]

/-- When both size fields fit 32 bits the generator returns the 44-byte
header followed by the zero samples. -/
theorem create_silence_wav_eq (d : ℚ)
    (hfit : 36 + silenceSamples d * 2 < 2 ^ 32) :
    create_silence_wav d
      = some (wavHeaderBytes (silenceSamples d)
          ++ List.replicate (silenceSamples d * 2) 0) := by
  have hdata : silenceSamples d * 2 < 2 ^ 32 := by omega
  rw [create_silence_wav]
  simp only [toBytes4, toBytes2, if_pos hfit, if_pos hdata]
  norm_num [wavHeaderBytes, riffTag, waveTag, fmtTag, dataTag]

/-- C10 counterexample: at the non-negative duration 100000 seconds the file
size `36 + 2 * 2205000000` no longer fits the 32-bit RIFF size field, so
`to_bytes` raises `OverflowError` instead of producing a byte string. -/
theorem silence_wav_overflow :
    ((0 : ℚ) ≤ 100000) ∧ create_silence_wav 100000 = none := by
  constructor
  · norm_num
  · have h : silenceSamples 100000 = 2205000000 := by
      norm_num [silenceSamples]
      rfl
    rw [create_silence_wav, h]
    norm_num [toBytes4]

/-- C10 as amended: for every non-negative duration whose sample count keeps
the 32-bit size fields in range, the generator returns exactly
`44 + 2 * samples` bytes whose RIFF size field reads `36 + 2 * samples`,
whose data size field reads `2 * samples`, and whose audio payload is all
zero, where `samples = floor(22050 * d)`. -/
theorem silence_wav_layout (d : ℚ) (hd : 0 ≤ d)
    (hfit : 36 + silenceSamples d * 2 < 2 ^ 32) :
    ∃ bytes, create_silence_wav d = some bytes ∧
      bytes.length = 44 + 2 * silenceSamples d ∧
      readLE4 bytes 4 = 36 + 2 * silenceSamples d ∧
      readLE4 bytes 40 = 2 * silenceSamples d ∧
      (∀ i, 44 ≤ i → i < bytes.length → bytes.get? i = some 0) ∧
      ((silenceSamples d : ℤ) = ⌊(22050 : ℚ) * d⌋) := by
  refine ⟨wavHeaderBytes (silenceSamples d) ++ List.replicate (silenceSamples d * 2) 0,
    create_silence_wav_eq d hfit, ?_, ?_, ?_, ?_, ?_⟩
  · simp [wavHeaderBytes, riffTag, waveTag, fmtTag, dataTag]
    omega
  · have hr : readLE4 (wavHeaderBytes (silenceSamples d)
        ++ List.replicate (silenceSamples d * 2) 0) 4
        = (36 + silenceSamples d * 2) % 256
          + 256 * ((36 + silenceSamples d * 2) / 256 % 256)
          + 65536 * ((36 + silenceSamples d * 2) / 65536 % 256)
          + 16777216 * ((36 + silenceSamples d * 2) / 16777216 % 256) := rfl
    rw [hr]
    omega
  · have hr : readLE4 (wavHeaderBytes (silenceSamples d)
        ++ List.replicate (silenceSamples d * 2) 0) 40
        = silenceSamples d * 2 % 256
          + 256 * (silenceSamples d * 2 / 256 % 256)
          + 65536 * (silenceSamples d * 2 / 65536 % 256)
          + 16777216 * (silenceSamples d * 2 / 16777216 % 256) := rfl
    rw [hr]
    omega
  · intro i hi hilen
    have hhdr : (wavHeaderBytes (silenceSamples d)).length = 44 := by
      simp [wavHeaderBytes, riffTag, waveTag, fmtTag, dataTag]
    rw [List.get?_append_right (by omega)]
    rw [hhdr]
    have hcount : i - 44 < silenceSamples d * 2 := by
      simp only [List.length_append, List.length_replicate, hhdr] at hilen
      omega
    rw [List.get?_eq_getElem?]
    simp [hcount]
  · have hnn : (0 : ℤ) ≤ ⌊(22050 : ℚ) * d⌋ := by
      apply Int.floor_nonneg.mpr
      positivity
    simp [silenceSamples, Int.toNat_of_nonneg hnn]

/-- Witness for C10's amended theorem at the one-second silence actually used
by the demo path (`_create_silence_wav(1.0)`): 22050 samples, 44144 bytes. -/
theorem silence_wav_layout_check :
    silenceSamples 1 = 22050 ∧
    ∃ bytes, create_silence_wav 1 = some bytes ∧
      bytes.length = 44 + 2 * silenceSamples 1 := by
  have hs : silenceSamples 1 = 22050 := by
    norm_num [silenceSamples]
    rfl
  refine ⟨hs, ?_⟩
  obtain ⟨bytes, h1, h2, _⟩ := silence_wav_layout 1 (by norm_num) (by rw [hs]; norm_num)
  exact ⟨bytes, h1, h2⟩

/-- JSON values as `json.loads` returns them. Numbers are kept as their
source lexeme: the code never computes on a parsed number, so only the
success or failure of numeric parsing is observable. -/
inductive Json where
  | jnull : Json
  | jbool : Bool → Json
  | jnum : List Char → Json
  | jstr : List Char → Json
  | jarr : List Json → Json
  | jobj : List (List Char × Json) → Json

/-- JSON whitespace as in `json.decoder` (space, tab, newline, carriage
return). -/
def isJsonWs (c : Char) : Bool :=
  c == ' ' || c == '\t' || c == '\n' || c == '\r'

/-- Skip JSON whitespace. -/
def skipWs (l : List Char) : List Char := l.dropWhile isJsonWs

def quoteCh : Char := '"'

def openBrace : Char := '\x7b'

def closeBrace : Char := '\x7d'

def backslashCh : Char := '\\'

/-- Value of one hexadecimal digit. -/
def hexVal (c : Char) : Option Nat :=
  if '0' ≤ c ∧ c ≤ '9' then some (c.toNat - 48)
  else if 'a' ≤ c ∧ c ≤ 'f' then some (c.toNat - 87)
  else if 'A' ≤ c ∧ c ≤ 'F' then some (c.toNat - 55)
  else none

/-- The single-character JSON string escapes. -/
def escChar (c : Char) : Option Char :=
  if c = quoteCh then some quoteCh
  else if c = backslashCh then some backslashCh
  else if c = '/' then some '/'
  else if c = 'b' then some '\x08'
  else if c = 'f' then some '\x0c'
  else if c = 'n' then some '\n'
  else if c = 'r' then some '\r'
  else if c = 't' then some '\t'
  else none

/-- Parse the body of a JSON string literal after its opening quote,
returning the decoded content and the input after the closing quote. -/
def parseStr : List Char → Option (List Char × List Char)
  | [] => none
  | c :: cs =>
    if c = quoteCh then some ([], cs)
    else if c = backslashCh then
      match cs with
      | [] => none
      | e :: cs2 =>
        if e = 'u' then
          match cs2 with
          | h1 :: h2 :: h3 :: h4 :: cs3 =>
            match hexVal h1, hexVal h2, hexVal h3, hexVal h4 with
            | some v1, some v2, some v3, some v4 =>
              match parseStr cs3 with
              | some (s, rest) =>
                some (Char.ofNat (4096 * v1 + 256 * v2 + 16 * v3 + v4) :: s, rest)
              | none => none
            | _, _, _, _ => none
          | _ => none
        else
          match escChar e with
          | some ch =>
            match parseStr cs2 with
            | some (s, rest) => some (ch :: s, rest)
            | none => none
          | none => none
    else
      match parseStr cs with
      | some (s, rest) => some (c :: s, rest)
      | none => none

/-- ASCII decimal digit. -/
def isDigitCh (c : Char) : Bool := '0' ≤ c && c ≤ '9'

/-- Characters that can occur in a JSON number lexeme. -/
def isNumCh (c : Char) : Bool :=
  isDigitCh c || c == '-' || c == '+' || c == '.' || c == 'e' || c == 'E'

/-- Integer part of the JSON number grammar: `0` or a nonzero digit followed
by digits; returns the unread remainder. -/
def numIntPart : List Char → Option (List Char)
  | [] => none
  | c :: cs =>
    if c = '0' then some cs
    else if isDigitCh c then some (cs.dropWhile isDigitCh)
    else none

/-- Optional fraction part `.digits`. -/
def numFracPart : List Char → Option (List Char)
  | [] => some []
  | c :: cs =>
    if c = '.' then
      match cs with
      | [] => none
      | c2 :: _ => if isDigitCh c2 then some (cs.dropWhile isDigitCh) else none
    else some (c :: cs)

/-- Optional exponent part `(e|E)(+|-)?digits`. -/
def numExpPart : List Char → Option (List Char)
  | [] => some []
  | c :: cs =>
    if c = 'e' ∨ c = 'E' then
      let cs2 := match cs with
        | s :: rest2 => if s = '+' ∨ s = '-' then rest2 else s :: rest2
        | [] => ([] : List Char)
      match cs2 with
      | [] => none
      | c2 :: _ => if isDigitCh c2 then some (cs2.dropWhile isDigitCh) else none
    else some (c :: cs)

/-- The RFC 8259 number grammar, checked on a whole lexeme. -/
def numLexOK (lex : List Char) : Bool :=
  let l1 := match lex with
    | c :: cs => if c = '-' then cs else c :: cs
    | [] => ([] : List Char)
  match numIntPart l1 with
  | none => false
  | some l2 =>
    match numFracPart l2 with
    | none => false
    | some l3 =>
      match numExpPart l3 with
      | none => false
      | some l4 => l4.isEmpty

/-- Lex and validate a JSON number at the head of the input. -/
def parseNumber (l : List Char) : Option (Json × List Char) :=
  let lex := l.takeWhile isNumCh
  if lex ≠ [] ∧ numLexOK lex = true then some (Json.jnum lex, l.dropWhile isNumCh)
  else none

mutual

/-- One JSON value at the head of the input (after optional whitespace),
returning the value and the unread remainder; the fuel bounds the recursion
depth and is chosen large enough in `jsonParse`. -/
def parseValue : Nat → List Char → Option (Json × List Char)
  | 0, _ => none
  | fuel + 1, l =>
    match skipWs l with
    | [] => none
    | c :: cs =>
      if c = quoteCh then
        match parseStr cs with
        | some (s, rest) => some (Json.jstr s, rest)
        | none => none
      else if c = openBrace then
        match skipWs cs with
        | [] => none
        | c2 :: cs2 =>
          if c2 = closeBrace then some (Json.jobj [], cs2)
          else
            match parseMembers fuel cs with
            | some (ms, rest) => some (Json.jobj ms, rest)
            | none => none
      else if c = '[' then
        match skipWs cs with
        | [] => none
        | c2 :: cs2 =>
          if c2 = ']' then some (Json.jarr [], cs2)
          else
            match parseElements fuel cs with
            | some (vs, rest) => some (Json.jarr vs, rest)
            | none => none
      else if startsWithL ("true".toList) (c :: cs) then
        some (Json.jbool true, (c :: cs).drop 4)
      else if startsWithL ("false".toList) (c :: cs) then
        some (Json.jbool false, (c :: cs).drop 5)
      else if startsWithL ("null".toList) (c :: cs) then
        some (Json.jnull, (c :: cs).drop 4)
      else parseNumber (c :: cs)

/-- The members of a JSON object after its opening brace (or after a comma),
up to and including the closing brace. -/
def parseMembers : Nat → List Char → Option (List (List Char × Json) × List Char)
  | 0, _ => none
  | fuel + 1, l =>
    match skipWs l with
    | [] => none
    | c :: cs =>
      if c = quoteCh then
        match parseStr cs with
        | none => none
        | some (k, r1) =>
          match skipWs r1 with
          | [] => none
          | c2 :: cs2 =>
            if c2 = ':' then
              match parseValue fuel cs2 with
              | none => none
              | some (v, r2) =>
                match skipWs r2 with
                | [] => none
                | c3 :: cs3 =>
                  if c3 = ',' then
                    match parseMembers fuel cs3 with
                    | some (ms, r3) => some ((k, v) :: ms, r3)
                    | none => none
                  else if c3 = closeBrace then some ([(k, v)], cs3)
                  else none
            else none
      else none

/-- The elements of a JSON array after its opening bracket (or after a
comma), up to and including the closing bracket. -/
def parseElements : Nat → List Char → Option (List Json × List Char)
  | 0, _ => none
  | fuel + 1, l =>
    match parseValue fuel l with
    | none => none
    | some (v, r1) =>
      match skipWs r1 with
      | [] => none
      | c :: cs =>
        if c = ',' then
          match parseElements fuel cs with
          | some (vs, r2) => some (v :: vs, r2)
          | none => none
        else if c = ']' then some ([v], cs)
        else none

end

/-- Model of `json.loads` on the captured group: one complete JSON value with nothing
but whitespace around it (Python raises `ValueError` — here `none` — on
trailing text). Modelled for the JSON forms an action block can use; the
permissive non-RFC extras of Python (`NaN`, `Infinity`) and the strict-mode
rejection of raw control characters in strings are out of scope. -/
def jsonParse (l : List Char) : Option Json :=
  match parseValue (2 * l.length + 2) l with
  | some (v, rest) => if skipWs rest = [] then some v else none
  | none => none

/-- The marker of the extraction regex, lowercased once since the pattern is
compiled with `re.IGNORECASE`. -/
def markerChars : List Char := "action_json:".toList

/-- Anchored case-insensitive match of the marker; returns the rest of the
input on success. -/
def matchMarkerCI : List Char → List Char → Option (List Char)
  | [], rest => some rest
  | _ :: _, [] => none
  | p :: ps, c :: cs => if lowerCh c = p then matchMarkerCI ps cs else none

/-- One anchored attempt of the pattern `ACTION_JSON:\s*(\x7b[^\x7d]*\x7d)`
(source line 517, compiled with `re.IGNORECASE | re.DOTALL`): the marker, a
greedy run of whitespace, an opening brace, then every character up to and
including the first closing brace. Returns the captured group
`\x7b[^\x7d]*\x7d`. -/
def matchHere (s : List Char) : Option (List Char) :=
  match matchMarkerCI markerChars s with
  | none => none
  | some rest =>
    match rest.dropWhile isPySpace with
    | [] => none
    | c :: cs =>
      if c = openBrace then
        match cs.dropWhile (fun ch => ch != closeBrace) with
        | _ :: _ => some (openBrace :: ((cs.takeWhile (fun ch => ch != closeBrace)) ++ [closeBrace]))
        | [] => none
      else none

/-- Model of `re.search`: try the anchored match at every position, leftmost first. -/
def searchActionJson : List Char → Option (List Char)
  | [] => none
  | c :: rest =>
    match matchHere (c :: rest) with
    | some cap => some cap
    | none => searchActionJson rest

/-- Model of `extract_action_from_response` (source lines 510-526): regex search for
the action block, then `json.loads` on the captured group; the enclosing
`try` turns a parse failure into `None`, and when the regex does not match
the function falls through to `None`. -/
def extract_action_from_response (s : List Char) : Option Json :=
  match searchActionJson s with
  | some cap => jsonParse cap
  | none => none

/-- A brace-delimited fragment that parses as a JSON object. -/
def isBraceJsonObj (t : List Char) : Bool :=
  match t, jsonParse t with
  | c :: _, some (Json.jobj _) => c == openBrace && t.getLast? == some closeBrace
  | _, _ => false

/-- Claim C1 in its own words, as a predicate at one position: the
case-SENSITIVE fixed marker `ACTION_JSON:`, followed by optional whitespace
and a brace-delimited JSON object that parses successfully. -/
def specMatchAt (l : List Char) : Bool :=
  startsWithL ("ACTION_JSON:".toList) l &&
    (let r := (l.drop 12).dropWhile isPySpace
     (List.range (r.length + 1)).any (fun i => isBraceJsonObj (r.take i)))

/-- Claim C1 in its own words, over the whole reply: some position satisfies
`specMatchAt`. -/
def specHasActionJson : List Char → Bool
  | [] => false
  | c :: rest => specMatchAt (c :: rest) || specHasActionJson rest

/-- The anchored match never succeeds on the empty input. -/
theorem matchHere_nil : matchHere [] = none := by
  rfl

/-- The search `searchActionJson` succeeds with a capture exactly when some position
carries an anchored match with that capture and every earlier position
carries none: the leftmost-match semantics of `re.search`. -/
theorem searchActionJson_iff (s cap : List Char) :
    searchActionJson s = some cap ↔
      ∃ n, matchHere (List.drop n s) = some cap ∧
        ∀ m, m < n → matchHere (List.drop m s) = none := by
  induction s with
  | nil =>
    constructor
    · intro h
      exact absurd h (by simp [searchActionJson])
    · rintro ⟨n, hn, -⟩
      rw [List.drop_nil] at hn
      rw [matchHere_nil] at hn
      exact absurd hn (by simp)
  | cons c rest ih =>
    cases hm : matchHere (c :: rest) with
    | some cap2 =>
      have hstep : searchActionJson (c :: rest) = some cap2 := by
        rw [searchActionJson, hm]
      constructor
      · intro h
        rw [hstep] at h
        refine ⟨0, ?_, fun m hmlt => absurd hmlt (Nat.not_lt_zero m)⟩
        rw [List.drop_zero, hm, h]
      · rintro ⟨n, hn, hall⟩
        cases n with
        | zero =>
          rw [List.drop_zero, hm] at hn
          rw [hstep, hn]
        | succ n2 =>
          have h0 := hall 0 (Nat.succ_pos n2)
          rw [List.drop_zero, hm] at h0
          exact absurd h0 (by simp)
    | none =>
      have hstep : searchActionJson (c :: rest) = searchActionJson rest := by
        rw [searchActionJson, hm]
      rw [hstep, ih]
      constructor
      · rintro ⟨n, hn, hall⟩
        refine ⟨n + 1, by simpa using hn, fun m hmlt => ?_⟩
        cases m with
        | zero => simpa using hm
        | succ m2 =>
          have := hall m2 (by omega)
          simpa using this
      · rintro ⟨n, hn, hall⟩
        cases n with
        | zero =>
          rw [List.drop_zero, hm] at hn
          exact absurd hn (by simp)
        | succ n2 =>
          refine ⟨n2, by simpa using hn, fun m hmlt => ?_⟩
          have := hall (m + 1) (by omega)
          simpa using this

/-- The search `searchActionJson` fails exactly when no position matches. -/
theorem searchActionJson_eq_none (s : List Char) :
    searchActionJson s = none ↔ ∀ n, matchHere (List.drop n s) = none := by
  induction s with
  | nil =>
    simp only [searchActionJson, List.drop_nil, matchHere_nil]
    exact ⟨fun _ _ => trivial, fun _ => trivial⟩
  | cons c rest ih =>
    cases hm : matchHere (c :: rest) with
    | some cap2 =>
      have hstep : searchActionJson (c :: rest) = some cap2 := by
        rw [searchActionJson, hm]
      constructor
      · intro h
        rw [hstep] at h
        exact absurd h (by simp)
      · intro h
        have h0 := h 0
        rw [List.drop_zero, hm] at h0
        exact absurd h0 (by simp)
    | none =>
      have hstep : searchActionJson (c :: rest) = searchActionJson rest := by
        rw [searchActionJson, hm]
      rw [hstep, ih]
      constructor
      · intro h n
        cases n with
        | zero => simpa using hm
        | succ n2 => simpa using h n2
      · intro h n
        have := h (n + 1)
        simpa using this

/-- C1 counterexample: the reply below contains the case-sensitive marker
`ACTION_JSON:` followed by the brace-delimited object `\x7b"a": 1\x7d`, which
parses — the claim's condition holds — yet the function returns `None`,
because the leftmost regex match captures the earlier unparseable fragment
`\x7bx\x7d` and no later match is tried. -/
theorem extract_action_claim_counterexample :
    specHasActionJson ("ACTION_JSON: \x7bx\x7d ACTION_JSON: \x7b\"a\": 1\x7d".toList) = true ∧
    extract_action_from_response
      ("ACTION_JSON: \x7bx\x7d ACTION_JSON: \x7b\"a\": 1\x7d".toList) = none := by
  constructor
  · decide
  · rfl

/-- C1 as amended: the extraction returns a parsed dictionary exactly when
some position of the reply carries a case-insensitive occurrence of
`ACTION_JSON:` followed by optional whitespace and a brace-delimited fragment
(up to the first closing brace), no earlier position does, and the fragment
captured there parses as JSON; in every other case it returns `None` (and,
being total, raises nothing). -/
theorem extract_action_spec (s : List Char) (d : Json) :
    extract_action_from_response s = some d ↔
      ∃ n cap, matchHere (List.drop n s) = some cap ∧ jsonParse cap = some d ∧
        ∀ m, m < n → matchHere (List.drop m s) = none := by
  cases hs : searchActionJson s with
  | some cap =>
    have hstep : extract_action_from_response s = jsonParse cap := by
      rw [extract_action_from_response, hs]
    obtain ⟨n, hn, hall⟩ := (searchActionJson_iff s cap).mp hs
    rw [hstep]
    constructor
    · intro h
      exact ⟨n, cap, hn, h, hall⟩
    · rintro ⟨n2, cap2, hn2, hp2, hall2⟩
      have hnn : n = n2 := by
        rcases lt_trichotomy n n2 with hlt | heq | hgt
        · have := hall2 n hlt
          rw [this] at hn
          exact absurd hn (by simp)
        · exact heq
        · have := hall n2 hgt
          rw [this] at hn2
          exact absurd hn2 (by simp)
      subst hnn
      rw [hn] at hn2
      injection hn2 with hcap
      subst hcap
      exact hp2
  | none =>
    have hstep : extract_action_from_response s = none := by
      rw [extract_action_from_response, hs]
    rw [hstep]
    constructor
    · intro h
      exact absurd h (by simp)
    · rintro ⟨n, cap, hn, -, -⟩
      have := (searchActionJson_eq_none s).mp hs n
      rw [this] at hn
      exact absurd hn (by simp)

/-- State of the structural-brace scanner: outside any string literal,
inside one, or inside one right after a backslash. -/
inductive ScanSt where
  | out : ScanSt
  | str : ScanSt
  | esc : ScanSt
deriving DecidableEq

/-- Walk the characters with the JSON string-literal automaton and count the
braces met outside string literals, returning the final state, the count of
opening braces and the count of closing braces. -/
def scanOb : ScanSt → List Char → ScanSt × Nat × Nat
  | st, [] => (st, 0, 0)
  | ScanSt.out, ch :: rest =>
    if ch = quoteCh then scanOb ScanSt.str rest
    else if ch = openBrace then
      ((scanOb ScanSt.out rest).1, (scanOb ScanSt.out rest).2.1 + 1,
       (scanOb ScanSt.out rest).2.2)
    else if ch = closeBrace then
      ((scanOb ScanSt.out rest).1, (scanOb ScanSt.out rest).2.1,
       (scanOb ScanSt.out rest).2.2 + 1)
    else scanOb ScanSt.out rest
  | ScanSt.str, ch :: rest =>
    if ch = backslashCh then scanOb ScanSt.esc rest
    else if ch = quoteCh then scanOb ScanSt.out rest
    else scanOb ScanSt.str rest
  | ScanSt.esc, _ :: rest => scanOb ScanSt.str rest

/-- The scanner is compositional: scanning a concatenation threads the state
and adds the counts. -/
theorem scanOb_append (a b : List Char) (st : ScanSt) :
    scanOb st (a ++ b)
      = ((scanOb (scanOb st a).1 b).1,
         (scanOb st a).2.1 + (scanOb (scanOb st a).1 b).2.1,
         (scanOb st a).2.2 + (scanOb (scanOb st a).1 b).2.2) := by
  induction a generalizing st with
  | nil => simp [scanOb]
  | cons ch rest ih =>
    cases st with
    | out =>
      by_cases h1 : ch = quoteCh
      · simp only [List.cons_append, scanOb, if_pos h1]
        exact ih ScanSt.str
      · by_cases h2 : ch = openBrace
        · simp only [List.cons_append, scanOb, if_neg h1, if_pos h2, List.append_eq]
          rw [ih ScanSt.out]
          simp only [Prod.mk.injEq]
          refine ⟨by trivial, by omega, by trivial⟩
        · by_cases h3 : ch = closeBrace
          · simp only [List.cons_append, scanOb, if_neg h1, if_neg h2, if_pos h3,
              List.append_eq]
            rw [ih ScanSt.out]
            simp only [Prod.mk.injEq]
            refine ⟨by trivial, by trivial, by omega⟩
          · simp only [List.cons_append, scanOb, if_neg h1, if_neg h2, if_neg h3]
            exact ih ScanSt.out
    | str =>
      by_cases h1 : ch = backslashCh
      · simp only [List.cons_append, scanOb, if_pos h1]
        exact ih ScanSt.esc
      · by_cases h2 : ch = quoteCh
        · simp only [List.cons_append, scanOb, if_neg h1, if_pos h2]
          exact ih ScanSt.out
        · simp only [List.cons_append, scanOb, if_neg h1, if_neg h2]
          exact ih ScanSt.str
    | esc =>
      simp only [List.cons_append, scanOb]
      exact ih ScanSt.str

/-- Chain two scanned segments that both start and end outside strings. -/
theorem scanOb_chain {p q : List Char} {a b c e : Nat} {st2 : ScanSt}
    (hp : scanOb ScanSt.out p = (ScanSt.out, a, b))
    (hq : scanOb ScanSt.out q = (st2, c, e)) :
    scanOb ScanSt.out (p ++ q) = (st2, a + c, b + e) := by
  rw [scanOb_append, hp]
  simp only [hq]

/-- A scanner step outside strings over an ordinary character. -/
theorem scanOb_out_skip (ch : Char) (l : List Char)
    (h1 : ch ≠ quoteCh) (h2 : ch ≠ openBrace) (h3 : ch ≠ closeBrace) :
    scanOb ScanSt.out (ch :: l) = scanOb ScanSt.out l := by
  rw [scanOb, if_neg h1, if_neg h2, if_neg h3]

/-- A scanner step inside a string over an ordinary character. -/
theorem scanOb_str_skip (ch : Char) (l : List Char)
    (h1 : ch ≠ backslashCh) (h2 : ch ≠ quoteCh) :
    scanOb ScanSt.str (ch :: l) = scanOb ScanSt.str l := by
  rw [scanOb, if_neg h1, if_neg h2]

/-- A run of ordinary characters outside strings counts nothing. -/
theorem scanOb_out_plain (pre : List Char)
    (h : ∀ x ∈ pre, x ≠ quoteCh ∧ x ≠ openBrace ∧ x ≠ closeBrace) :
    scanOb ScanSt.out pre = (ScanSt.out, 0, 0) := by
  induction pre with
  | nil => rfl
  | cons ch rest ih =>
    obtain ⟨h1, h2, h3⟩ := h ch (by simp)
    rw [scanOb_out_skip ch rest h1 h2 h3]
    exact ih (fun x hx => h x (by simp [hx]))

/-- JSON whitespace is ordinary for the scanner. -/
theorem isJsonWs_plain (x : Char) (h : isJsonWs x = true) :
    x ≠ quoteCh ∧ x ≠ openBrace ∧ x ≠ closeBrace := by
  simp only [isJsonWs, Bool.or_eq_true, beq_iff_eq] at h
  rcases h with ((h | h) | h) | h <;> subst h <;>
    exact ⟨by decide, by decide, by decide⟩

/-- Number-lexeme characters are ordinary for the scanner. -/
theorem isNumCh_plain (x : Char) (h : isNumCh x = true) :
    x ≠ quoteCh ∧ x ≠ openBrace ∧ x ≠ closeBrace := by
  simp only [isNumCh, isDigitCh, Bool.or_eq_true, beq_iff_eq, Bool.and_eq_true,
    decide_eq_true_eq] at h
  rcases h with ((((⟨ha, hb⟩ | h) | h) | h) | h) | h
  · refine ⟨fun hEq => ?_, fun hEq => ?_, fun hEq => ?_⟩ <;>
      (subst hEq; revert ha hb; decide)
  all_goals (subst h; exact ⟨by decide, by decide, by decide⟩)

/-- Hexadecimal digits are neither backslash nor quote. -/
theorem hexVal_plain (x : Char) (v : Nat) (h : hexVal x = some v) :
    x ≠ backslashCh ∧ x ≠ quoteCh := by
  rw [hexVal] at h
  split_ifs at h with h1 h2 h3
  · obtain ⟨ha, hb⟩ := h1
    refine ⟨fun hEq => ?_, fun hEq => ?_⟩ <;> (subst hEq; revert ha hb; decide)
  · obtain ⟨ha, hb⟩ := h2
    refine ⟨fun hEq => ?_, fun hEq => ?_⟩ <;> (subst hEq; revert ha hb; decide)
  · obtain ⟨ha, hb⟩ := h3
    refine ⟨fun hEq => ?_, fun hEq => ?_⟩ <;> (subst hEq; revert ha hb; decide)

/-- The characters a successful `parseStr` consumes scan from inside a string
to outside, with no structural brace. -/
theorem parseStr_consumed : ∀ (l s rest : List Char), parseStr l = some (s, rest) →
    ∃ pre, l = pre ++ rest ∧ scanOb ScanSt.str pre = (ScanSt.out, 0, 0) := by
  intro l
  induction l using parseStr.induct with
  | case1 =>
    intro s rest h
    exact absurd h (by simp [parseStr])
  | case2 cs =>
    intro s rest h
    have hval : parseStr (quoteCh :: cs) = some ([], cs) := by
      rw [parseStr.eq_def]
      simp
    rw [hval] at h
    simp only [Option.some.injEq, Prod.mk.injEq] at h
    obtain ⟨hs, hr⟩ := h
    exact ⟨[quoteCh], by rw [← hr]; rfl, rfl⟩
  | case3 hne =>
    intro s rest h
    have hval : parseStr [backslashCh] = none := by
      rw [parseStr.eq_def]
      simp [backslashCh, quoteCh]
    rw [hval] at h
    exact absurd h (by simp)
  | case4 h1 h2 h3 h4 cs3 v1 v2 v3 v4 hv4 hv3 hv2 hv1 s0 rest0 hrec hne ih =>
    intro s rest h
    have hval : parseStr (backslashCh :: 'u' :: h1 :: h2 :: h3 :: h4 :: cs3)
        = some (Char.ofNat (4096 * v1 + 256 * v2 + 16 * v3 + v4) :: s0, rest0) := by
      rw [parseStr.eq_def]
      simp [backslashCh, quoteCh, hv1, hv2, hv3, hv4, hrec]
    rw [hval] at h
    simp only [Option.some.injEq, Prod.mk.injEq] at h
    obtain ⟨hs, hr⟩ := h
    obtain ⟨pre, hpre, hscan⟩ := ih s0 rest0 hrec
    refine ⟨backslashCh :: 'u' :: h1 :: h2 :: h3 :: h4 :: pre, by rw [← hr]; simp [hpre], ?_⟩
    have e1 := hexVal_plain h1 v1 hv1
    have e2 := hexVal_plain h2 v2 hv2
    have e3 := hexVal_plain h3 v3 hv3
    have e4 := hexVal_plain h4 v4 hv4
    rw [show scanOb ScanSt.str (backslashCh :: 'u' :: h1 :: h2 :: h3 :: h4 :: pre)
        = scanOb ScanSt.esc ('u' :: h1 :: h2 :: h3 :: h4 :: pre) by
      rw [scanOb, if_pos rfl]]
    rw [show scanOb ScanSt.esc ('u' :: h1 :: h2 :: h3 :: h4 :: pre)
        = scanOb ScanSt.str (h1 :: h2 :: h3 :: h4 :: pre) from rfl]
    rw [scanOb_str_skip h1 _ e1.1 e1.2, scanOb_str_skip h2 _ e2.1 e2.2,
      scanOb_str_skip h3 _ e3.1 e3.2, scanOb_str_skip h4 _ e4.1 e4.2]
    exact hscan
  | case5 h1 h2 h3 h4 cs3 v1 v2 v3 v4 hv4 hv3 hv2 hv1 hrec hne ih =>
    intro s rest h
    have hval : parseStr (backslashCh :: 'u' :: h1 :: h2 :: h3 :: h4 :: cs3) = none := by
      rw [parseStr.eq_def]
      simp [backslashCh, quoteCh, hv1, hv2, hv3, hv4, hrec]
    rw [hval] at h
    exact absurd h (by simp)
  | case6 h1 h2 h3 h4 cs3 hfail hne =>
    intro s rest h
    cases hv1 : hexVal h1 with
    | none =>
      have hval : parseStr (backslashCh :: 'u' :: h1 :: h2 :: h3 :: h4 :: cs3) = none := by
        rw [parseStr.eq_def]
        simp [backslashCh, quoteCh, hv1]
      rw [hval] at h
      exact absurd h (by simp)
    | some v1 =>
      cases hv2 : hexVal h2 with
      | none =>
        have hval : parseStr (backslashCh :: 'u' :: h1 :: h2 :: h3 :: h4 :: cs3) = none := by
          rw [parseStr.eq_def]
          simp [backslashCh, quoteCh, hv1, hv2]
        rw [hval] at h
        exact absurd h (by simp)
      | some v2 =>
        cases hv3 : hexVal h3 with
        | none =>
          have hval : parseStr (backslashCh :: 'u' :: h1 :: h2 :: h3 :: h4 :: cs3) = none := by
            rw [parseStr.eq_def]
            simp [backslashCh, quoteCh, hv1, hv2, hv3]
          rw [hval] at h
          exact absurd h (by simp)
        | some v3 =>
          cases hv4 : hexVal h4 with
          | none =>
            have hval : parseStr (backslashCh :: 'u' :: h1 :: h2 :: h3 :: h4 :: cs3) = none := by
              rw [parseStr.eq_def]
              simp [backslashCh, quoteCh, hv1, hv2, hv3, hv4]
            rw [hval] at h
            exact absurd h (by simp)
          | some v4 => exact (hfail v1 v2 v3 v4 hv1 hv2 hv3 hv4).elim
  | case7 cs hshort hne =>
    intro s rest h
    rcases cs with _ | ⟨a, _ | ⟨b, _ | ⟨c, _ | ⟨e, tl⟩⟩⟩⟩
    · have hval : parseStr (backslashCh :: 'u' :: ([] : List Char)) = none := by
        rw [parseStr.eq_def]
        simp [backslashCh, quoteCh]
      rw [hval] at h
      exact absurd h (by simp)
    · have hval : parseStr (backslashCh :: 'u' :: [a]) = none := by
        rw [parseStr.eq_def]
        simp [backslashCh, quoteCh]
      rw [hval] at h
      exact absurd h (by simp)
    · have hval : parseStr (backslashCh :: 'u' :: [a, b]) = none := by
        rw [parseStr.eq_def]
        simp [backslashCh, quoteCh]
      rw [hval] at h
      exact absurd h (by simp)
    · have hval : parseStr (backslashCh :: 'u' :: [a, b, c]) = none := by
        rw [parseStr.eq_def]
        simp [backslashCh, quoteCh]
      rw [hval] at h
      exact absurd h (by simp)
    · exact (hshort a b c e tl rfl).elim
  | case8 c cs hcu ch hesc s0 rest0 hrec hne ih =>
    intro s rest h
    have hval : parseStr (backslashCh :: c :: cs) = some (ch :: s0, rest0) := by
      rw [parseStr.eq_def]
      simp [backslashCh, quoteCh, hcu, hesc, hrec]
    rw [hval] at h
    simp only [Option.some.injEq, Prod.mk.injEq] at h
    obtain ⟨hs, hr⟩ := h
    obtain ⟨pre, hpre, hscan⟩ := ih s0 rest0 hrec
    refine ⟨backslashCh :: c :: pre, by rw [← hr]; simp [hpre], ?_⟩
    rw [show scanOb ScanSt.str (backslashCh :: c :: pre)
        = scanOb ScanSt.esc (c :: pre) by rw [scanOb, if_pos rfl]]
    rw [show scanOb ScanSt.esc (c :: pre) = scanOb ScanSt.str pre from rfl]
    exact hscan
  | case9 c cs hcu ch hesc hrec hne ih =>
    intro s rest h
    have hval : parseStr (backslashCh :: c :: cs) = none := by
      rw [parseStr.eq_def]
      simp [backslashCh, quoteCh, hcu, hesc, hrec]
    rw [hval] at h
    exact absurd h (by simp)
  | case10 c cs hcu hesc hne =>
    intro s rest h
    have hval : parseStr (backslashCh :: c :: cs) = none := by
      rw [parseStr.eq_def]
      simp [backslashCh, quoteCh, hcu, hesc]
    rw [hval] at h
    exact absurd h (by simp)
  | case11 c cs hq hb s0 rest0 hrec ih =>
    intro s rest h
    have hval : parseStr (c :: cs) = some (c :: s0, rest0) := by
      rw [parseStr.eq_def]
      simp [hq, hb, hrec]
    rw [hval] at h
    simp only [Option.some.injEq, Prod.mk.injEq] at h
    obtain ⟨hs, hr⟩ := h
    obtain ⟨pre, hpre, hscan⟩ := ih s0 rest0 hrec
    refine ⟨c :: pre, by rw [← hr]; simp [hpre], ?_⟩
    rw [scanOb_str_skip c pre hb hq]
    exact hscan
  | case12 c cs hq hb hrec ih =>
    intro s rest h
    have hval : parseStr (c :: cs) = none := by
      rw [parseStr.eq_def]
      simp [hq, hb, hrec]
    rw [hval] at h
    exact absurd h (by simp)

/-- Splitting off the whitespace prefix that `skipWs` removes. -/
theorem skipWs_decomp (l : List Char) :
    ∃ pre, l = pre ++ skipWs l ∧ scanOb ScanSt.out pre = (ScanSt.out, 0, 0) := by
  refine ⟨l.takeWhile isJsonWs, (List.takeWhile_append_dropWhile _ _).symm, ?_⟩
  apply scanOb_out_plain
  intro x hx
  exact isJsonWs_plain x (List.mem_takeWhile_imp hx)

/-- The characters a successful `parseNumber` consumes are ordinary. -/
theorem parseNumber_consumed (l : List Char) (v : Json) (rest : List Char)
    (h : parseNumber l = some (v, rest)) :
    ∃ pre, l = pre ++ rest ∧ scanOb ScanSt.out pre = (ScanSt.out, 0, 0) := by
  rw [parseNumber] at h
  split at h
  · simp only [Option.some.injEq, Prod.mk.injEq] at h
    obtain ⟨hv, hr⟩ := h
    refine ⟨l.takeWhile isNumCh, ?_, ?_⟩
    · rw [← hr]
      exact (List.takeWhile_append_dropWhile _ _).symm
    · apply scanOb_out_plain
      intro x hx
      exact isNumCh_plain x (List.mem_takeWhile_imp hx)
  · exact absurd h (by simp)

/-- A `startsWithL` hit splits off the pattern as a prefix. -/
theorem startsWithL_split (p : List Char) : ∀ l, startsWithL p l = true →
    l = p ++ l.drop p.length := by
  induction p with
  | nil => intro l _; simp
  | cons c cs ih =>
    intro l h
    cases l with
    | nil => exact absurd h (by simp [startsWithL])
    | cons x xs =>
      simp only [startsWithL, Bool.and_eq_true, beq_iff_eq] at h
      obtain ⟨hc, hrest⟩ := h
      subst hc
      have := ih xs hrest
      simpa using this

/-- Opening a string literal from outside. -/
theorem scanOb_quote_chain (l : List Char) (r : ScanSt × Nat × Nat)
    (h : scanOb ScanSt.str l = r) : scanOb ScanSt.out (quoteCh :: l) = r := by
  rw [scanOb, if_pos rfl]
  exact h

/-- An opening brace outside strings adds one to the open count. -/
theorem scanOb_open_chain (l : List Char) (st2 : ScanSt) (a b : Nat)
    (h : scanOb ScanSt.out l = (st2, a, b)) :
    scanOb ScanSt.out (openBrace :: l) = (st2, a + 1, b) := by
  rw [scanOb, if_neg (by decide), if_pos rfl, h]

/-- A closing brace outside strings adds one to the close count. -/
theorem scanOb_close_chain (l : List Char) (st2 : ScanSt) (a b : Nat)
    (h : scanOb ScanSt.out l = (st2, a, b)) :
    scanOb ScanSt.out (closeBrace :: l) = (st2, a, b + 1) := by
  rw [scanOb, if_neg (by decide), if_neg (by decide), if_pos rfl, h]

/-- An ordinary character outside strings changes nothing. -/
theorem scanOb_plain_chain (ch : Char) (l : List Char) (r : ScanSt × Nat × Nat)
    (h1 : ch ≠ quoteCh) (h2 : ch ≠ openBrace) (h3 : ch ≠ closeBrace)
    (h : scanOb ScanSt.out l = r) : scanOb ScanSt.out (ch :: l) = r := by
  rw [scanOb_out_skip ch l h1 h2 h3]
  exact h

/-- Prepending a segment that counts nothing keeps the scan result. -/
theorem scanOb_zero_chain {p q : List Char} {st2 : ScanSt} {c e : Nat}
    (hp : scanOb ScanSt.out p = (ScanSt.out, 0, 0))
    (hq : scanOb ScanSt.out q = (st2, c, e)) :
    scanOb ScanSt.out (p ++ q) = (st2, c, e) := by
  have := scanOb_chain hp hq
  simpa using this

/-- Prepending a string-literal body segment (scanned from inside a string)
that counts nothing keeps the scan result. -/
theorem scanOb_str_zero_chain {p q : List Char} {st2 : ScanSt} {c e : Nat}
    (hp : scanOb ScanSt.str p = (ScanSt.out, 0, 0))
    (hq : scanOb ScanSt.out q = (st2, c, e)) :
    scanOb ScanSt.str (p ++ q) = (st2, c, e) := by
  rw [scanOb_append, hp]
  simp [hq]

/-- Every successful parse consumes a segment that starts and ends outside
string literals and whose structural braces balance: a value or an array run
balances exactly, while an object-members run closes one brace more than it
opens (its opening brace was consumed by the caller). -/
theorem parse_consumed (fuel : Nat) :
    (∀ l v rest, parseValue fuel l = some (v, rest) →
      ∃ pre k, l = pre ++ rest ∧ scanOb ScanSt.out pre = (ScanSt.out, k, k)) ∧
    (∀ l ms rest, parseMembers fuel l = some (ms, rest) →
      ∃ pre k, l = pre ++ rest ∧ scanOb ScanSt.out pre = (ScanSt.out, k, k + 1)) ∧
    (∀ l vs rest, parseElements fuel l = some (vs, rest) →
      ∃ pre k, l = pre ++ rest ∧ scanOb ScanSt.out pre = (ScanSt.out, k, k)) := by
  induction fuel with
  | zero =>
    refine ⟨?_, ?_, ?_⟩ <;> intro l a rest h
    · exact absurd h (by rw [parseValue.eq_1]; simp)
    · exact absurd h (by rw [parseMembers.eq_1]; simp)
    · exact absurd h (by rw [parseElements.eq_1]; simp)
  | succ fuel ih =>
    obtain ⟨ihV, ihM, ihE⟩ := ih
    refine ⟨?_, ?_, ?_⟩
    · intro l v rest h
      rw [parseValue.eq_2] at h
      obtain ⟨wsPre, hls, hwsScan⟩ := skipWs_decomp l
      split at h
      · exact absurd h (by simp)
      next c cs hws =>
        rw [hws] at hls
        by_cases hq : c = quoteCh
        · rw [if_pos hq] at h
          subst hq
          split at h
          next s r1 hps =>
            simp only [Option.some.injEq, Prod.mk.injEq] at h
            obtain ⟨hv, hr⟩ := h
            obtain ⟨sp, hsp, hspScan⟩ := parseStr_consumed cs s r1 hps
            refine ⟨wsPre ++ (quoteCh :: sp), 0, ?_, ?_⟩
            · rw [hls, hsp, ← hr]
              simp
            · exact scanOb_zero_chain hwsScan (scanOb_quote_chain sp _ hspScan)
          next hps => exact absurd h (by simp)
        · rw [if_neg hq] at h
          by_cases hob : c = openBrace
          · rw [if_pos hob] at h
            subst hob
            obtain ⟨ws2, hcs, hws2Scan⟩ := skipWs_decomp cs
            split at h
            next hws2 => exact absurd h (by simp)
            next c2 cs2 hws2 =>
              rw [hws2] at hcs
              by_cases hcb : c2 = closeBrace
              · rw [if_pos hcb] at h
                subst hcb
                simp only [Option.some.injEq, Prod.mk.injEq] at h
                obtain ⟨hv, hr⟩ := h
                refine ⟨wsPre ++ (openBrace :: (ws2 ++ [closeBrace])), 1, ?_, ?_⟩
                · rw [hls, hcs, ← hr]
                  simp
                · refine scanOb_zero_chain hwsScan (scanOb_open_chain _ _ _ _ ?_)
                  exact scanOb_zero_chain hws2Scan (scanOb_close_chain [] _ _ _ rfl)
              · rw [if_neg hcb] at h
                split at h
                next ms r1 hpm =>
                  simp only [Option.some.injEq, Prod.mk.injEq] at h
                  obtain ⟨hv, hr⟩ := h
                  obtain ⟨mp, k, hmp, hmpScan⟩ := ihM cs ms r1 hpm
                  refine ⟨wsPre ++ (openBrace :: mp), k + 1, ?_, ?_⟩
                  · rw [hls, hmp, ← hr]
                    simp
                  · exact scanOb_zero_chain hwsScan (scanOb_open_chain _ _ _ _ hmpScan)
                next hpm => exact absurd h (by simp)
          · rw [if_neg hob] at h
            by_cases harr : c = '['
            · rw [if_pos harr] at h
              subst harr
              obtain ⟨ws2, hcs, hws2Scan⟩ := skipWs_decomp cs
              split at h
              next hws2 => exact absurd h (by simp)
              next c2 cs2 hws2 =>
                rw [hws2] at hcs
                by_cases hcb : c2 = ']'
                · rw [if_pos hcb] at h
                  subst hcb
                  simp only [Option.some.injEq, Prod.mk.injEq] at h
                  obtain ⟨hv, hr⟩ := h
                  refine ⟨wsPre ++ ('[' :: (ws2 ++ [']'])), 0, ?_, ?_⟩
                  · rw [hls, hcs, ← hr]
                    simp
                  · refine scanOb_zero_chain hwsScan
                      (scanOb_plain_chain _ _ _ (by decide) (by decide) (by decide) ?_)
                    exact scanOb_zero_chain hws2Scan
                      (scanOb_plain_chain _ _ _ (by decide) (by decide) (by decide) rfl)
                · rw [if_neg hcb] at h
                  split at h
                  next vs r1 hpe =>
                    simp only [Option.some.injEq, Prod.mk.injEq] at h
                    obtain ⟨hv, hr⟩ := h
                    obtain ⟨ep, k, hep, hepScan⟩ := ihE cs vs r1 hpe
                    refine ⟨wsPre ++ ('[' :: ep), k, ?_, ?_⟩
                    · rw [hls, hep, ← hr]
                      simp
                    · exact scanOb_zero_chain hwsScan
                        (scanOb_plain_chain _ _ _ (by decide) (by decide) (by decide) hepScan)
                  next hpe => exact absurd h (by simp)
            · rw [if_neg harr] at h
              by_cases htr : startsWithL ("true".toList) (c :: cs) = true
              · rw [if_pos htr] at h
                simp only [Option.some.injEq, Prod.mk.injEq] at h
                obtain ⟨hv, hr⟩ := h
                refine ⟨wsPre ++ ("true".toList), 0, ?_, ?_⟩
                · rw [hls, ← hr]
                  rw [startsWithL_split _ _ htr]
                  simp
                · exact scanOb_zero_chain hwsScan (by decide)
              · rw [if_neg htr] at h
                by_cases hfa : startsWithL ("false".toList) (c :: cs) = true
                · rw [if_pos hfa] at h
                  simp only [Option.some.injEq, Prod.mk.injEq] at h
                  obtain ⟨hv, hr⟩ := h
                  refine ⟨wsPre ++ ("false".toList), 0, ?_, ?_⟩
                  · rw [hls, ← hr]
                    rw [startsWithL_split _ _ hfa]
                    simp
                  · exact scanOb_zero_chain hwsScan (by decide)
                · rw [if_neg hfa] at h
                  by_cases hnu : startsWithL ("null".toList) (c :: cs) = true
                  · rw [if_pos hnu] at h
                    simp only [Option.some.injEq, Prod.mk.injEq] at h
                    obtain ⟨hv, hr⟩ := h
                    refine ⟨wsPre ++ ("null".toList), 0, ?_, ?_⟩
                    · rw [hls, ← hr]
                      rw [startsWithL_split _ _ hnu]
                      simp
                    · exact scanOb_zero_chain hwsScan (by decide)
                  · rw [if_neg hnu] at h
                    obtain ⟨np, hnp, hnpScan⟩ := parseNumber_consumed _ _ _ h
                    refine ⟨wsPre ++ np, 0, ?_, ?_⟩
                    · rw [hls, hnp]
                      simp
                    · exact scanOb_zero_chain hwsScan hnpScan
    · intro l ms rest h
      rw [parseMembers.eq_2] at h
      obtain ⟨wsPre, hls, hwsScan⟩ := skipWs_decomp l
      split at h
      · exact absurd h (by simp)
      next c cs hws =>
        rw [hws] at hls
        by_cases hq : c = quoteCh
        · rw [if_pos hq] at h
          subst hq
          split at h
          · exact absurd h (by simp)
          next key r1 hps =>
            obtain ⟨sp, hsp, hspScan⟩ := parseStr_consumed cs key r1 hps
            obtain ⟨ws1, hr1, hws1Scan⟩ := skipWs_decomp r1
            split at h
            · exact absurd h (by simp)
            next c2 cs2 hws1 =>
              rw [hws1] at hr1
              by_cases hcolon : c2 = ':'
              · rw [if_pos hcolon] at h
                subst hcolon
                split at h
                · exact absurd h (by simp)
                next vv r2 hpv =>
                  obtain ⟨vp, k, hvp, hvpScan⟩ := ihV cs2 vv r2 hpv
                  obtain ⟨ws2, hr2, hws2Scan⟩ := skipWs_decomp r2
                  split at h
                  · exact absurd h (by simp)
                  next c3 cs3 hws2 =>
                    rw [hws2] at hr2
                    by_cases hcomma : c3 = ','
                    · rw [if_pos hcomma] at h
                      subst hcomma
                      split at h
                      next ms2 r3 hpm =>
                        simp only [Option.some.injEq, Prod.mk.injEq] at h
                        obtain ⟨hv, hr⟩ := h
                        obtain ⟨mp, km, hmp, hmpScan⟩ := ihM cs3 ms2 r3 hpm
                        refine ⟨wsPre ++ (quoteCh ::
                          (sp ++ (ws1 ++ (':' :: (vp ++ (ws2 ++ (',' :: mp))))))),
                          k + km, ?_, ?_⟩
                        · rw [hls, hsp, hr1, hvp, hr2, hmp, ← hr]
                          simp
                        · refine scanOb_zero_chain hwsScan (scanOb_quote_chain _ _ ?_)
                          refine scanOb_str_zero_chain hspScan ?_
                          refine scanOb_zero_chain hws1Scan
                            (scanOb_plain_chain _ _ _ (by decide) (by decide) (by decide) ?_)
                          have htail : scanOb ScanSt.out (ws2 ++ (',' :: mp))
                              = (ScanSt.out, km, km + 1) :=
                            scanOb_zero_chain hws2Scan
                              (scanOb_plain_chain _ _ _ (by decide) (by decide) (by decide)
                                hmpScan)
                          have hall := scanOb_chain hvpScan htail
                          exact hall.trans (by rw [Nat.add_assoc])
                      next hpm => exact absurd h (by simp)
                    · rw [if_neg hcomma] at h
                      by_cases hcb : c3 = closeBrace
                      · rw [if_pos hcb] at h
                        subst hcb
                        simp only [Option.some.injEq, Prod.mk.injEq] at h
                        obtain ⟨hv, hr⟩ := h
                        refine ⟨wsPre ++ (quoteCh ::
                          (sp ++ (ws1 ++ (':' :: (vp ++ (ws2 ++ [closeBrace])))))),
                          k, ?_, ?_⟩
                        · rw [hls, hsp, hr1, hvp, hr2, ← hr]
                          simp
                        · refine scanOb_zero_chain hwsScan (scanOb_quote_chain _ _ ?_)
                          refine scanOb_str_zero_chain hspScan ?_
                          refine scanOb_zero_chain hws1Scan
                            (scanOb_plain_chain _ _ _ (by decide) (by decide) (by decide) ?_)
                          have htail : scanOb ScanSt.out (ws2 ++ [closeBrace])
                              = (ScanSt.out, 0, 1) :=
                            scanOb_zero_chain hws2Scan (scanOb_close_chain [] _ _ _ rfl)
                          have hall := scanOb_chain hvpScan htail
                          simpa using hall
                      · rw [if_neg hcb] at h
                        exact absurd h (by simp)
              · rw [if_neg hcolon] at h
                exact absurd h (by simp)
        · rw [if_neg hq] at h
          exact absurd h (by simp)
    · intro l vs rest h
      rw [parseElements.eq_2] at h
      split at h
      · exact absurd h (by simp)
      next vv r1 hpv =>
        obtain ⟨vp, k, hvp, hvpScan⟩ := ihV l vv r1 hpv
        obtain ⟨ws1, hr1, hws1Scan⟩ := skipWs_decomp r1
        split at h
        · exact absurd h (by simp)
        next c cs hws1 =>
          rw [hws1] at hr1
          by_cases hcomma : c = ','
          · rw [if_pos hcomma] at h
            subst hcomma
            split at h
            next vs2 r2 hpe =>
              simp only [Option.some.injEq, Prod.mk.injEq] at h
              obtain ⟨hv, hr⟩ := h
              obtain ⟨ep, ke, hep, hepScan⟩ := ihE cs vs2 r2 hpe
              refine ⟨vp ++ (ws1 ++ (',' :: ep)), k + ke, ?_, ?_⟩
              · rw [hvp, hr1, hep, ← hr]
                simp
              · have htail : scanOb ScanSt.out (ws1 ++ (',' :: ep))
                    = (ScanSt.out, ke, ke) :=
                  scanOb_zero_chain hws1Scan
                    (scanOb_plain_chain _ _ _ (by decide) (by decide) (by decide) hepScan)
                exact scanOb_chain hvpScan htail
            next hpe => exact absurd h (by simp)
          · rw [if_neg hcomma] at h
            by_cases hcb : c = ']'
            · rw [if_pos hcb] at h
              subst hcb
              simp only [Option.some.injEq, Prod.mk.injEq] at h
              obtain ⟨hv, hr⟩ := h
              refine ⟨vp ++ (ws1 ++ [']']), k, ?_, ?_⟩
              · rw [hvp, hr1, ← hr]
                simp
              · have htail : scanOb ScanSt.out (ws1 ++ [']'])
                    = (ScanSt.out, 0, 0) :=
                  scanOb_zero_chain hws1Scan
                    (scanOb_plain_chain _ _ _ (by decide) (by decide) (by decide) rfl)
                have hall := scanOb_chain hvpScan htail
                simpa using hall
            · rw [if_neg hcb] at h
              exact absurd h (by simp)

/-- The scanner's close count never exceeds the plain number of closing
braces in the text. -/
theorem scanOb_closes_le_count (l : List Char) (st : ScanSt) :
    (scanOb st l).2.2 ≤ List.count closeBrace l := by
  have H : ∀ n (l : List Char), l.length ≤ n → ∀ st,
      (scanOb st l).2.2 ≤ List.count closeBrace l := by
    intro n
    induction n with
    | zero =>
      intro l hl st
      cases l with
      | nil => simp [scanOb]
      | cons ch rest => simp at hl
    | succ n ihn =>
      intro l hl st
      cases l with
      | nil => simp [scanOb]
      | cons ch rest =>
        have hcnt : List.count closeBrace rest ≤ List.count closeBrace (ch :: rest) := by
          rw [List.count_cons]
          omega
        cases st with
        | out =>
          by_cases h1 : ch = quoteCh
          · rw [scanOb, if_pos h1]
            exact le_trans (ihn rest (by simpa using hl) ScanSt.str) hcnt
          · by_cases h2 : ch = openBrace
            · rw [scanOb, if_neg h1, if_pos h2]
              exact le_trans (ihn rest (by simpa using hl) ScanSt.out) hcnt
            · by_cases h3 : ch = closeBrace
              · rw [scanOb, if_neg h1, if_neg h2, if_pos h3]
                have := ihn rest (by simpa using hl) ScanSt.out
                subst h3
                rw [List.count_cons]
                simp only [beq_self_eq_true, if_true]
                omega
              · rw [scanOb, if_neg h1, if_neg h2, if_neg h3]
                exact le_trans (ihn rest (by simpa using hl) ScanSt.out) hcnt
        | str =>
          by_cases h1 : ch = backslashCh
          · rw [scanOb, if_pos h1]
            exact le_trans (ihn rest (by simpa using hl) ScanSt.esc) hcnt
          · by_cases h2 : ch = quoteCh
            · rw [scanOb, if_neg h1, if_pos h2]
              exact le_trans (ihn rest (by simpa using hl) ScanSt.out) hcnt
            · rw [scanOb, if_neg h1, if_neg h2]
              exact le_trans (ihn rest (by simpa using hl) ScanSt.str) hcnt
        | esc =>
          rw [show scanOb ScanSt.esc (ch :: rest) = scanOb ScanSt.str rest from rfl]
          exact le_trans (ihn rest (by simpa using hl) ScanSt.str) hcnt
  exact H l.length l le_rfl st

/-- The shape of a regex capture: an opening brace, an interior free of
closing braces, and the first closing brace. -/
theorem matchHere_capture (t cap : List Char) (h : matchHere t = some cap) :
    ∃ mid, cap = openBrace :: (mid ++ [closeBrace]) ∧ ∀ x ∈ mid, x ≠ closeBrace := by
  rw [matchHere] at h
  split at h
  · exact absurd h (by simp)
  next rest hmk =>
    split at h
    · exact absurd h (by simp)
    next c cs hdrop =>
      split at h
      next hob =>
        split at h
        next hne =>
          simp only [Option.some.injEq] at h
          refine ⟨cs.takeWhile (fun ch => ch != closeBrace), h.symm, ?_⟩
          intro x hx
          have := List.mem_takeWhile_imp hx
          simpa using this
        next => exact absurd h (by simp)
      next hob => exact absurd h (by simp)

/-- A capture whose interior holds a structural opening brace cannot parse:
its one closing brace cannot balance two opens. -/
theorem jsonParse_unbalanced (cap mid : List Char)
    (hcap : cap = openBrace :: (mid ++ [closeBrace]))
    (hnc : ∀ x ∈ mid, x ≠ closeBrace)
    (hopen2 : 2 ≤ (scanOb ScanSt.out cap).2.1) :
    jsonParse cap = none := by
  rw [jsonParse]
  split
  next v rest hpv =>
    split
    next hsw =>
      exfalso
      obtain ⟨pre, k, hsplit, hscan⟩ := (parse_consumed _).1 cap v rest hpv
      have hrest : rest = [] := by
        by_contra hne
        have hws := (List.dropWhile_eq_nil_iff).mp hsw
        have hlast : cap.getLast? = some closeBrace := by
          rw [hcap]
          rw [show openBrace :: (mid ++ [closeBrace])
              = (openBrace :: mid) ++ [closeBrace] by simp]
          exact List.getLast?_concat _
        have hlast2 : rest.getLast? = some closeBrace := by
          rw [hsplit] at hlast
          rw [← hlast]
          exact (List.getLast?_append_of_ne_nil _ hne).symm
        have hcb : closeBrace ∈ rest :=
          List.mem_of_mem_getLast? (by simp [hlast2])
        have := hws closeBrace hcb
        exact absurd this (by decide)
      subst hrest
      rw [List.append_nil] at hsplit
      subst hsplit
      have hcount : List.count closeBrace cap = 1 := by
        rw [hcap, List.count_cons, List.count_append, List.count_eq_zero.mpr ?_]
        · simp [closeBrace, openBrace]
        · intro hm
          exact hnc closeBrace hm rfl
      have hle := scanOb_closes_le_count cap ScanSt.out
      rw [hscan] at hopen2 hle
      simp only at hopen2 hle
      omega
    next => rfl
  next hpv => rfl

/-- C9 counterexample: here the JSON object following the marker,
`\x7b"t": "a\x7bb"\x7d`, contains a nested opening brace before its closing
brace — inside a string literal — and the extraction still returns the parsed
dictionary, not `None`. -/
theorem nested_brace_in_string_still_parses :
    searchActionJson ("ACTION_JSON: \x7b\"t\": \"a\x7bb\"\x7d".toList)
      = some ("\x7b\"t\": \"a\x7bb\"\x7d".toList) ∧
    (("\x7b\"t\": \"a\x7bb\"\x7d".toList).drop 1).contains openBrace = true ∧
    extract_action_from_response ("ACTION_JSON: \x7b\"t\": \"a\x7bb\"\x7d".toList)
      = some (Json.jobj [(("t".toList), Json.jstr ("a\x7bb".toList))]) := by
  refine ⟨rfl, by decide, rfl⟩

/-- C9 as amended: whenever the captured fragment contains, after its opening
brace, another opening brace that lies outside every string literal, the
fragment cannot parse (the capture stopped at the first closing brace, which
cannot balance two structural opens) and the action is silently dropped. -/
theorem nested_structural_brace_drops_action (s cap : List Char)
    (hsearch : searchActionJson s = some cap)
    (hopen2 : 2 ≤ (scanOb ScanSt.out cap).2.1) :
    extract_action_from_response s = none := by
  obtain ⟨n, hn, -⟩ := (searchActionJson_iff s cap).mp hsearch
  obtain ⟨mid, hcap, hnc⟩ := matchHere_capture _ _ hn
  rw [extract_action_from_response, hsearch]
  exact jsonParse_unbalanced cap mid hcap hnc hopen2

/-- Witness for C9's amended theorem: an action block with a nested object
value is captured only up to the nested object's closing brace and dropped. -/
theorem nested_structural_brace_drops_action_check :
    searchActionJson ("ACTION_JSON: \x7b\"a\": \x7b\"b\": 1\x7d\x7d".toList)
      = some ("\x7b\"a\": \x7b\"b\": 1\x7d".toList) ∧
    2 ≤ (scanOb ScanSt.out ("\x7b\"a\": \x7b\"b\": 1\x7d".toList)).2.1 ∧
    extract_action_from_response ("ACTION_JSON: \x7b\"a\": \x7b\"b\": 1\x7d\x7d".toList)
      = none :=
  ⟨rfl, by decide,
   nested_structural_brace_drops_action _ _ rfl (by decide)⟩

/-- The OS side effects `execute_system_action` can attempt
(`webbrowser.open`, `subprocess.Popen`, `pyautogui.write`, `pyperclip.copy`,
`pyautogui.screenshot` and the screenshot's `save`). -/
inductive SysCall where
  | openUrl : List Char → SysCall
  | popen : List (List Char) → SysCall
  | writeText : List Char → SysCall
  | copyText : List Char → SysCall
  | screenshot : SysCall
  | saveFile : List Char → SysCall
deriving DecidableEq

/-- A raised exception from an OS call: `FileNotFoundError` (which the
editor/calculator fallback chains catch) or anything else, carrying its
rendered message. -/
inductive PyErr where
  | fileNotFound : PyErr
  | other : List Char → PyErr
deriving DecidableEq

/-- The values `sys.platform` is compared against. -/
inductive OsPlatform where
  | win32 : OsPlatform
  | darwin : OsPlatform
  | linux : OsPlatform
deriving DecidableEq

/-- Rendering `str(e)` for the modelled exceptions. -/
def pyErrStr : PyErr → List Char
  | PyErr.fileNotFound => ("FileNotFoundError".toList)
  | PyErr.other msg => msg

/-- Lookup `action_data.get(key, default)` over the action fields. -/
def getStrD (d : List (List Char × List Char)) (key dflt : List Char) : List Char :=
  match d.find? (fun kv => kv.1 == key) with
  | some kv => kv.2
  | none => dflt

/-- Python `str.lower` over a string. -/
def lowerL (l : List Char) : List Char := l.map lowerCh

/-- Substitution `query.replace(' ', '+')` for the search URLs. -/
def plusify (q : List Char) : List Char :=
  q.map (fun c => if c = ' ' then '+' else c)

/-- Attempt a sequence of already-recorded calls whose outcome is `r`,
producing the success message or propagating the error. -/
def afterCalls (r : List SysCall × Option PyErr) (msg : List Char) :
    List SysCall × Except PyErr (List Char) :=
  (r.1, match r.2 with
        | none => Except.ok msg
        | some e => Except.error e)

/-- One OS call, recorded and then decided by the environment. -/
def oneCall (env : SysCall → Option PyErr) (c : SysCall) :
    List SysCall × Option PyErr :=
  ([c], env c)

/-- A `try/except FileNotFoundError` fallback chain of `Popen` attempts
(source lines 550-557 and 565-568): `FileNotFoundError` moves on to the next
command; any other error, or one from the final command, propagates. -/
def tryPopenChain (env : SysCall → Option PyErr) :
    List (List (List Char)) → List SysCall × Option PyErr
  | [] => ([], none)
  | [cmd] => ([SysCall.popen cmd], env (SysCall.popen cmd))
  | cmd :: cmd2 :: rest =>
    match env (SysCall.popen cmd) with
    | none => ([SysCall.popen cmd], none)
    | some PyErr.fileNotFound =>
      let r := tryPopenChain env (cmd2 :: rest)
      (SysCall.popen cmd :: r.1, r.2)
    | some e => ([SysCall.popen cmd], some e)

/-- The final `return` of `execute_system_action` (source line 632). -/
def notImplMsg (intent : List Char) : List Char :=
  ("❓ Ye action abhi implement nahi hai: ".toList) ++ intent

/-- The automation-disabled return (source line 612). -/
def autoMsg (intent : List Char) : List Char :=
  ("⚠️ \x27".toList) ++ intent
    ++ ("\x27 action requires system automation, but it\x27s disabled due to display issues. Try: export DISPLAY=:0".toList)

/-- The catch-all error return (source line 636). -/
def errMsg (e : PyErr) : List Char :=
  ("❌ Action mein problem hui: ".toList) ++ pyErrStr e

/-- The `if`/`elif` chain of `execute_system_action` (source lines 528-632)
on an already-lowercased intent: `some` is a branch that returns, `none`
falls through to the not-implemented return. `avail` is
`AUTOMATION_AVAILABLE`, whose truth also makes `pyautogui`/`pyperclip`
non-`None` (they are set together in `init_automation`). -/
def execBranch (env : SysCall → Option PyErr) (avail : Bool) (plat : OsPlatform)
    (nowTime nowStamp : List Char) (action : List (List Char × List Char))
    (intent : List Char) : Option (List SysCall × Except PyErr (List Char)) :=
  if intent = ("open_app".toList) then
    let app := lowerL (getStrD action ("app".toList) [])
    if app = ("chrome".toList) ∨ app = ("browser".toList) then
      some (afterCalls (oneCall env (SysCall.openUrl ("https://www.google.com".toList)))
        ("✅ Chrome browser khol diya!".toList))
    else if app = ("gmail".toList) then
      some (afterCalls (oneCall env (SysCall.openUrl ("https://mail.google.com".toList)))
        ("✅ Gmail khol diya - check kar sakte hain messages!".toList))
    else if app = ("notepad".toList) ∨ app = ("editor".toList) ∨ app = ("text".toList) then
      some (afterCalls
        (match plat with
         | OsPlatform.win32 => oneCall env (SysCall.popen [("notepad.exe".toList)])
         | OsPlatform.darwin => oneCall env (SysCall.popen
             [("open".toList), ("-a".toList), ("TextEdit".toList)])
         | OsPlatform.linux => tryPopenChain env
             [[("gedit".toList)], [("nano".toList)], [("vim".toList)]])
        ("✅ Text editor khol diya!".toList))
    else if app = ("calculator".toList) ∨ app = ("calc".toList) then
      some (afterCalls
        (match plat with
         | OsPlatform.win32 => oneCall env (SysCall.popen [("calc.exe".toList)])
         | OsPlatform.darwin => oneCall env (SysCall.popen
             [("open".toList), ("-a".toList), ("Calculator".toList)])
         | OsPlatform.linux => tryPopenChain env
             [[("gnome-calculator".toList)], [("xcalc".toList)]])
        ("✅ Calculator ready hai!".toList))
    else if app = ("file".toList) ∨ app = ("files".toList) ∨ app = ("explorer".toList) then
      some (afterCalls
        (match plat with
         | OsPlatform.win32 => oneCall env (SysCall.popen [("explorer.exe".toList)])
         | OsPlatform.darwin => oneCall env (SysCall.popen
             [("open".toList), ("-a".toList), ("Finder".toList)])
         | OsPlatform.linux => oneCall env (SysCall.popen [("nautilus".toList)]))
        ("✅ File manager khol diya!".toList))
    else none
  else if intent = ("search".toList) then
    let query := getStrD action ("query".toList) []
    if query ≠ [] then
      some (afterCalls (oneCall env (SysCall.openUrl
          (("https://www.google.com/search?q=".toList) ++ plusify query)))
        (("✅ \x27".toList) ++ query ++ ("\x27 ke liye search kar diya!".toList)))
    else none
  else if intent = ("search_youtube".toList) then
    let query := getStrD action ("query".toList) []
    if query ≠ [] then
      some (afterCalls (oneCall env (SysCall.openUrl
          (("https://www.youtube.com/results?search_query=".toList) ++ plusify query)))
        (("✅ YouTube par \x27".toList) ++ query ++ ("\x27 search kar diya!".toList)))
    else none
  else if intent = ("open_website".toList) then
    let url := getStrD action ("url".toList) []
    if url ≠ [] then
      let url2 := if startsWithL ("http://".toList) url = true
          ∨ startsWithL ("https://".toList) url = true then url
        else ("https://".toList) ++ url
      some (afterCalls (oneCall env (SysCall.openUrl url2))
        (("✅ Website khol diya: ".toList) ++ url2))
    else none
  else if intent = ("current_time".toList) then
    some ([], Except.ok (("🕐 Current time: ".toList) ++ nowTime))
  else if intent = ("weather".toList) then
    let location := getStrD action ("location".toList) ("your location".toList)
    some ([], Except.ok
      (("🌤️ Weather info ke liye OpenWeatherMap API integrate karna hoga. Location: ".toList)
        ++ location))
  else if avail = false then
    some ([], Except.ok (autoMsg intent))
  else if intent = ("type_text".toList) then
    let text := getStrD action ("text".toList) []
    if text ≠ [] then
      some (afterCalls (oneCall env (SysCall.writeText text))
        (("✅ Text type kar diya: \x27".toList) ++ text.take 50 ++ ("...\x27".toList)))
    else none
  else if intent = ("copy_text".toList) then
    let text := getStrD action ("text".toList) []
    if text ≠ [] then
      some (afterCalls (oneCall env (SysCall.copyText text))
        (("✅ Clipboard mein copy kar diya: \x27".toList) ++ text.take 50 ++ ("...\x27".toList)))
    else none
  else if intent = ("take_screenshot".toList) then
    let filename := ("screenshot_".toList) ++ nowStamp ++ (".png".toList)
    some (match env SysCall.screenshot with
      | some e => ([SysCall.screenshot], Except.error e)
      | none =>
        match env (SysCall.saveFile filename) with
        | some e => ([SysCall.screenshot, SysCall.saveFile filename], Except.error e)
        | none => ([SysCall.screenshot, SysCall.saveFile filename],
            Except.ok (("✅ Screenshot le liya: ".toList) ++ filename)))
  else none

/-- Model of `execute_system_action` (source lines 528-637): lowercase the intent,
run the branch chain, fall through to the not-implemented message, and let
the enclosing `try` turn any raised error into the canned error string. The
result records the OS calls attempted and the returned string. -/
def execute_system_action (env : SysCall → Option PyErr) (avail : Bool)
    (plat : OsPlatform) (nowTime nowStamp : List Char)
    (action : List (List Char × List Char)) : List SysCall × List Char :=
  let intent := lowerL (getStrD action ("intent".toList) [])
  let inner := match execBranch env avail plat nowTime nowStamp action intent with
    | some r => r
    | none => ([], Except.ok (notImplMsg intent))
  (inner.1, match inner.2 with
    | Except.ok s => s
    | Except.error e => errMsg e)

/-- The intents the dispatch chain string-matches against. -/
def knownIntents : List (List Char) :=
  ([ "open_app", "search", "search_youtube", "open_website", "current_time",
     "weather", "type_text", "copy_text", "take_screenshot" ] :
   List String).map String.toList

/-- C6 counterexample: for the unknown intent `dance` with automation
disabled, the function performs no OS action and returns a string — but the
automation-disabled string, not the not-implemented status string. -/
theorem unknown_intent_automation_message :
    execute_system_action (fun _ => none) false OsPlatform.linux [] []
      [(("intent".toList), ("dance".toList))]
      = ([], autoMsg ("dance".toList)) ∧
    autoMsg ("dance".toList) ≠ notImplMsg ("dance".toList) :=
  ⟨rfl, by decide⟩

/-- C6 as amended: the dispatch goes solely by the lowercased `intent`
string; for an intent outside the fixed set no OS call is attempted and the
returned string is the not-implemented status when automation is available,
or the automation-disabled status when it is not — and, the function being
total, a string is returned in every case. -/
theorem unknown_intent_no_action (env : SysCall → Option PyErr) (avail : Bool)
    (plat : OsPlatform) (nowTime nowStamp : List Char)
    (action : List (List Char × List Char))
    (h : lowerL (getStrD action ("intent".toList) []) ∉ knownIntents) :
    execute_system_action env avail plat nowTime nowStamp action
      = ([], if avail = true
             then notImplMsg (lowerL (getStrD action ("intent".toList) []))
             else autoMsg (lowerL (getStrD action ("intent".toList) []))) := by
  have h1 : lowerL (getStrD action ("intent".toList) []) ≠ ("open_app".toList) :=
    fun hc => h (by rw [hc]; decide)
  have h2 : lowerL (getStrD action ("intent".toList) []) ≠ ("search".toList) :=
    fun hc => h (by rw [hc]; decide)
  have h3 : lowerL (getStrD action ("intent".toList) []) ≠ ("search_youtube".toList) :=
    fun hc => h (by rw [hc]; decide)
  have h4 : lowerL (getStrD action ("intent".toList) []) ≠ ("open_website".toList) :=
    fun hc => h (by rw [hc]; decide)
  have h5 : lowerL (getStrD action ("intent".toList) []) ≠ ("current_time".toList) :=
    fun hc => h (by rw [hc]; decide)
  have h6 : lowerL (getStrD action ("intent".toList) []) ≠ ("weather".toList) :=
    fun hc => h (by rw [hc]; decide)
  have h7 : lowerL (getStrD action ("intent".toList) []) ≠ ("type_text".toList) :=
    fun hc => h (by rw [hc]; decide)
  have h8 : lowerL (getStrD action ("intent".toList) []) ≠ ("copy_text".toList) :=
    fun hc => h (by rw [hc]; decide)
  have h9 : lowerL (getStrD action ("intent".toList) []) ≠ ("take_screenshot".toList) :=
    fun hc => h (by rw [hc]; decide)
  simp only [execute_system_action]
  rw [execBranch.eq_def, if_neg h1, if_neg h2, if_neg h3, if_neg h4, if_neg h5, if_neg h6]
  cases avail with
  | false =>
    rw [if_pos rfl]
    simp
  | true =>
    rw [if_neg (by simp), if_neg h7, if_neg h8, if_neg h9]
    simp

/-- Witness for C6's amended theorem at the unknown intent `fly` with
automation available. -/
theorem unknown_intent_no_action_check :
    execute_system_action (fun _ => none) true OsPlatform.linux [] []
      [(("intent".toList), ("fly".toList))]
      = ([], notImplMsg ("fly".toList)) := by
  have := unknown_intent_no_action (fun _ => none) true OsPlatform.linux [] []
    [(("intent".toList), ("fly".toList))] (by decide)
  simpa using this

end MurfAI
